import Mathlib

set_option maxHeartbeats 1000000

namespace DiskMaint

/-!
# Verification of the disk-maintenance backend (`src/backend/main.py`)

Shallow embedding of the scanner (`DiskScanner`), the analyzer (`Analyzer`),
the comparator (`FolderComparator`) and the `/api/findings` filter logic.

Modelling conventions, used throughout:

* Paths use the POSIX separator `/`; `os.path.dirname`, `os.path.basename`
  and `os.path.join` are modelled on the underlying `List Char` data (the
  byte-level `String` library functions do not reduce in the kernel).
* ISO-8601 timestamp strings are modelled by their underlying integer
  timestamps.  `datetime.fromtimestamp(t).isoformat()` is strictly monotone
  and injective in `t`, so the equality and order comparisons the source
  performs on such strings coincide with integer comparisons.
* Python dictionaries are modelled as association lists in insertion order;
  lookups read the first matching key (keys are unique in every real dict).
* Python `sort`/`sorted` (Timsort, stable) is modelled by the stable
  `List.insertionSort`: a stable sort by a given key is unique, so the
  model's output coincides with CPython's.
* The analyzer's 10% relative-size test `abs(a-b)/b <= 0.10` (float true
  division) is modelled by the exact rational test `10*|a-b| <= b`; the two
  agree except at astronomically large sizes (beyond 2^53 bytes) where
  binary64 rounding of the quotient could differ.
* `str.lower` is modelled character-wise by `Char.toLower` (faithful on
  ASCII, which covers every constant the source compares against).
-/

/-! ## String and path primitives -/

/-- `str.lower`, character-wise. -/
def lowerStr (s : String) : String := String.mk (s.toList.map Char.toLower)

/-- Core of `os.path.dirname`, operating on the reversed character list:
drop the final path component, then - unless the remainder is all
separators - strip the trailing separators, exactly as `posixpath.split`
does. -/
def dirnameRev (l : List Char) : List Char :=
  if (l.dropWhile (· != '/')).all (· == '/') then l.dropWhile (· != '/')
  else (l.dropWhile (· != '/')).dropWhile (· == '/')

/-- `os.path.dirname`. -/
def dirname (p : String) : String := String.mk (dirnameRev p.toList.reverse).reverse

/-- `os.path.basename`: everything after the last separator. -/
def basename (p : String) : String :=
  String.mk (p.toList.reverse.takeWhile (· != '/')).reverse

/-- A path consisting only of separators (or empty); exactly the fixed
points of `dirname`. -/
def allSlash (p : String) : Bool := p.toList.all (· == '/')

/-- `path.count(os.sep)`: the depth key used by `_propagate_folder_sizes`. -/
def sepCount (p : String) : Nat := p.toList.count '/'

/-- `os.path.join root name` (POSIX rules, relative or absolute second
component). -/
def joinPath (a b : String) : String :=
  if b.toList.head? = some '/' then b
  else if a = "" ∨ a.toList.getLast? = some '/' then a ++ b
  else a ++ "/" ++ b

/-- Composition of relative paths, modelling
`os.path.relpath(os.path.join(abs, n), root)` when `abs` sits at relative
position `r` below `root`. -/
def joinRel (r n : String) : String := if r = "" then n else r ++ "/" ++ n

/-- `os.path.splitext(name)[1].lower()`: the extension including the
leading dot, empty when the only dots are leading dots. -/
def fileExt (name : String) : String :=
  match name.toList.reverse.dropWhile (· != '.') with
  | [] => ""
  | _ :: before =>
      if before.any (· != '.') then
        lowerStr (String.mk ('.' :: (name.toList.reverse.takeWhile (· != '.')).reverse))
      else ""

/-! ## The string order used by `sorted` over sets of paths -/

/-- Lexicographic comparison of character lists by code point; this is the
order CPython's `sorted` uses on strings. -/
def lexLe : List Char → List Char → Bool
  | [], _ => true
  | _ :: _, [] => false
  | a :: as, b :: bs =>
      if a.toNat < b.toNat then true
      else if b.toNat < a.toNat then false
      else lexLe as bs

def strLe (a b : String) : Prop := lexLe a.toList b.toList = true

instance : DecidableRel strLe := fun _ _ => by unfold strLe; infer_instance

/-- Sort key relation of `_propagate_folder_sizes`: depth descending. -/
def depthGE (a b : String) : Prop := sepCount b ≤ sepCount a

instance : DecidableRel depthGE := fun _ _ => by unfold depthGE; infer_instance

instance : IsTotal String depthGE :=
  ⟨fun a b => (Nat.le_total (sepCount b) (sepCount a)).imp id id⟩

instance : IsTrans String depthGE :=
  ⟨fun _ _ _ h1 h2 => Nat.le_trans h2 h1⟩

/-! ## Association lists (Python `dict`s in insertion order) -/

def alookup {β : Type} : List (String × β) → String → Option β
  | [], _ => none
  | (k', v) :: rest, k => if k' = k then some v else alookup rest k

def aupdate {β : Type} : List (String × β) → String → (β → β) → List (String × β)
  | [], _, _ => []
  | (k', v) :: rest, k, f =>
      if k' = k then (k', f v) :: aupdate rest k f else (k', v) :: aupdate rest k f

/-! ## Grouping into a `defaultdict(list)` -/

/-- Append `v` to the entry of `k` (first match), or append a fresh
singleton group at the end: the behaviour of `d[k].append(v)` for a
`defaultdict(list)`. -/
def addToGroup {κ α : Type} [DecidableEq κ] (k : κ) (v : α) :
    List (κ × List α) → List (κ × List α)
  | [] => [(k, [v])]
  | (k', vs) :: rest =>
      if k' = k then (k', vs ++ [v]) :: rest else (k', vs) :: addToGroup k v rest

def groupBy {κ α : Type} [DecidableEq κ] (key : α → κ) (l : List α) :
    List (κ × List α) :=
  l.foldl (fun acc x => addToGroup (key x) x acc) []

def glookup {κ α : Type} [DecidableEq κ] : List (κ × List α) → κ → Option (List α)
  | [], _ => none
  | (k', v) :: rest, k => if k' = k then some v else glookup rest k

/-- Keep the first occurrence of every element (the key-iteration order of a
Python dict built by repeated insertion). -/
def dedupFirst {κ : Type} [DecidableEq κ] : List κ → List κ
  | [] => []
  | x :: xs => x :: dedupFirst (xs.filter (fun y => y ≠ x))
termination_by l => l.length
decreasing_by
  simp only [List.length_cons]
  exact Nat.lt_succ_of_le (List.length_filter_le _ _)

/-- Combinator describing one `defaultdict` group after processing more
elements: `none` stays `none` only when nothing was added. -/
def ogAppend {α : Type} (o : Option (List α)) (l : List α) : Option (List α) :=
  match o, l with
  | some vs, l => some (vs ++ l)
  | none, [] => none
  | none, l => some l

/-! ## Data model -/

/-- Result of a successful `os.stat`. -/
structure FStat where
  st_size : Nat
  st_ctime : Int
  st_mtime : Int
  st_atime : Int
deriving DecidableEq

/-- A directory in the modelled filesystem.  `readable = false` models a
directory whose `scandir` raises `PermissionError` (which `os.walk`, with
its default `onerror=None`, silently swallows: the directory yields no
triple and is not descended).  File and subdirectory entries carry the
outcome of `os.stat` on them (`none` = per-entry `PermissionError`/`OSError`).
Subdirectories are always descended by `os.walk` regardless of their
statability. -/
inductive FSDir where
  | node (readable : Bool) (files : List (String × Option FStat))
      (subdirs : List (String × Option FStat × FSDir))

/-- One element of `self.files`. -/
structure FileRec where
  path : String
  size_bytes : Nat
  extension : String
  created_at : Int
  modified_at : Int
  accessed_at : Int
  parent_dir : String
deriving DecidableEq

/-- One value of `self.folders` (the key repeats the `path` field). -/
structure FolderRec where
  path : String
  total_size : Nat
  file_count : Nat
  last_modified : Option Int
  last_accessed : Option Int
deriving DecidableEq

abbrev FolderMap : Type := List (String × FolderRec)

def zeroFolder (p : String) : FolderRec := ⟨p, 0, 0, none, none⟩

/-! ## Path policy -/

def IGNORE_PATHS : List String :=
  ["C:\\Windows", "C:\\Program Files", "C:\\Program Files (x86)",
   "C:\\ProgramData", "$Recycle.Bin", "System Volume Information"]

/-- Python's `needle in hay` substring test. -/
def substrOf (needle hay : List Char) : Bool := decide (needle <:+: hay)

/-- `DiskScanner.should_ignore` (the comparator's inline filter is the
same expression). -/
def shouldIgnore (path : String) : Bool :=
  IGNORE_PATHS.any fun ig => substrOf (lowerStr ig).toList (lowerStr path).toList

/-! ## Scanner: the walk -/

mutual

/-- `os.walk(root, topdown=True)` as driven by the scanner, with the
`dirs[:] = [d for d in dirs if not self.should_ignore(os.path.join(root, d))]`
pruning applied before descending.  Yields the `(root, files)` data of each
triple (the scanner never reads the `dirs` component again). -/
def walkFS (root : String) : FSDir → List (String × List (String × Option FStat))
  | .node false _ _ => []
  | .node true fs sds => (root, fs) :: walkSubs root sds

def walkSubs (root : String) :
    List (String × Option FStat × FSDir) → List (String × List (String × Option FStat))
  | [] => []
  | (n, _, d) :: rest =>
      (if shouldIgnore (joinPath root n) then [] else walkFS (joinPath root n) d)
        ++ walkSubs root rest

end

/-- `DiskScanner._update_folder_stats` comparison-and-replace on one
timestamp (`None`-aware max). -/
def bumpTime (cur : Option Int) (t : Int) : Option Int :=
  match cur with
  | none => some t
  | some v => if v < t then some t else some v

/-- `DiskScanner._update_folder_stats`. -/
def updateFolderStats (folders : FolderMap) (folderPath : String) (st : FStat) :
    FolderMap :=
  aupdate folders folderPath fun f =>
    { f with
      total_size := f.total_size + st.st_size
      file_count := f.file_count + 1
      last_modified := bumpTime f.last_modified st.st_mtime
      last_accessed := bumpTime f.last_accessed st.st_atime }

/-- Folder-entry initialisation on entering a directory not yet in the map. -/
def ensureFolder (folders : FolderMap) (r : String) : FolderMap :=
  if (alookup folders r).isSome then folders else folders ++ [(r, zeroFolder r)]

/-- The `file_info` dict recorded for a successfully statted file. -/
def mkFileRec (r n : String) (st : FStat) : FileRec :=
  ⟨joinPath r n, st.st_size, fileExt n, st.st_ctime, st.st_mtime, st.st_atime, r⟩

/-- The inner `for filename in files` loop of `DiskScanner.scan`:
per-entry stat failures are skipped, successes are recorded and folded
into the containing folder's statistics. -/
def scanTripleFiles (r : String) (st0 : List FileRec × FolderMap)
    (entries : List (String × Option FStat)) : List FileRec × FolderMap :=
  entries.foldl
    (fun acc e =>
      match e.2 with
      | none => acc
      | some st => (acc.1 ++ [mkFileRec r e.1 st], updateFolderStats acc.2 r st))
    st0

/-- The outer walk loop of `DiskScanner.scan`. -/
def scanWalk (trace : List (String × List (String × Option FStat)))
    (init : List FileRec × FolderMap) : List FileRec × FolderMap :=
  trace.foldl (fun acc tr => scanTripleFiles tr.1 (acc.1, ensureFolder acc.2 tr.1) tr.2) init

/-- One step of `DiskScanner._propagate_folder_sizes`: fold the folder's
aggregates into its parent when the parent is a different key of the map. -/
def propStep (m : FolderMap) (fp : String) : FolderMap :=
  let parent := dirname fp
  if parent = fp then m
  else
    match alookup m parent, alookup m fp with
    | some _, some child =>
        aupdate m parent fun par =>
          { par with
            total_size := par.total_size + child.total_size
            file_count := par.file_count + child.file_count
            last_modified :=
              match child.last_modified with
              | none => par.last_modified
              | some c => bumpTime par.last_modified c
            last_accessed :=
              match child.last_accessed with
              | none => par.last_accessed
              | some c => bumpTime par.last_accessed c }
    | _, _ => m

/-- `DiskScanner._propagate_folder_sizes`: visit folder paths sorted by
separator count descending (stable, like `sorted(..., reverse=True)`), and
fold each into its parent. -/
def propagateFolderSizes (m : FolderMap) : FolderMap :=
  (List.insertionSort depthGE (m.map Prod.fst)).foldl propStep m

/-- `DiskScanner.scan`: pre-insert the root folder, walk, then propagate. -/
def scanModel (rootPath : String) (d : FSDir) : List FileRec × FolderMap :=
  let st := scanWalk (walkFS rootPath d) ([], [(rootPath, zeroFolder rootPath)])
  (st.1, propagateFolderSizes st.2)

/-! ## Scanner: the streaming variant (`DiskScanner.scan_async`) -/

/-- A progress emission (`ProgressEvent` minus the routing fields the
endpoint adds). -/
structure ProgressEv where
  files_scanned : Nat
  folders_scanned : Nat
  bytes_scanned : Nat
  current_path : String
  progress_percent : Int
  elapsed_seconds : Int
  message : String

/-- Running state of `scan_async`: the shared `(files, folders)` plus the
local counters and emission bookkeeping. `tick` indexes the oracle of
`time.time()` call results. -/
structure AsyncState where
  files : List FileRec
  folders : FolderMap
  fileCount : Nat
  totalBytes : Nat
  lastEmit : Int
  tick : Nat
  events : List ProgressEv

/-- The inner file loop of `scan_async` (same recording as `scan`, plus the
`file_count`/`total_bytes` counters). -/
def asyncTripleFiles (r : String) (st0 : AsyncState)
    (entries : List (String × Option FStat)) : AsyncState :=
  entries.foldl
    (fun acc e =>
      match e.2 with
      | none => acc
      | some st =>
          { acc with
            files := acc.files ++ [mkFileRec r e.1 st]
            folders := updateFolderStats acc.folders r st
            fileCount := acc.fileCount + 1
            totalBytes := acc.totalBytes + st.st_size })
    st0

/-- One walk-triple step of `scan_async`: folder init, file loop, then the
throttled progress emission (`every 50 files or every 1 second`). -/
def asyncStep (rootPath : String) (timeFn : Nat → Int) (startTime : Int) (cb : Bool)
    (st : AsyncState) (tr : String × List (String × Option FStat)) : AsyncState :=
  let st1 := { st with folders := ensureFolder st.folders tr.1 }
  let st2 := asyncTripleFiles tr.1 st1 tr.2
  let now := timeFn st2.tick
  let st3 := { st2 with tick := st2.tick + 1 }
  if st3.fileCount % 50 = 0 ∨ 1 ≤ now - st3.lastEmit then
    if cb then
      let depth : Int := (sepCount tr.1 : Int) - (sepCount rootPath : Int)
      let ev : ProgressEv :=
        ⟨st3.files.length, st3.folders.length, st3.totalBytes, tr.1,
          min 95 (20 + depth * 5), now - startTime, "Scanning: " ++ tr.1⟩
      { st3 with events := st3.events ++ [ev], lastEmit := now }
    else st3
  else st3

/-- `DiskScanner.scan_async`.  `time.time()` results are an oracle indexed
by call count: call 0 is `start_time`, call 1 initialises `last_emit`, and
each triple makes one further call. -/
def scanAsyncModel (rootPath : String) (d : FSDir) (timeFn : Nat → Int) (cb : Bool) :
    AsyncState :=
  let startTime := timeFn 0
  let init : AsyncState :=
    ⟨[], [(rootPath, zeroFolder rootPath)], 0, 0, timeFn 1, 2, []⟩
  let fin := (walkFS rootPath d).foldl (asyncStep rootPath timeFn startTime cb) init
  { fin with folders := propagateFolderSizes fin.folders }

/-! ## Analyzer: duplicate-folder and duplicate-file candidates -/

/-- The `paths`/`total_bytes` payload of a duplicate finding (the `id` and
`reason` fields carry no verified content; `reason` embeds
float-formatted magnitudes). -/
structure DupFinding where
  paths : List String
  total_bytes : Nat
deriving DecidableEq

/-- Sort relation of `candidates.sort(key=lambda x: x[1]["total_size"],
reverse=True)`. -/
def sizeGE (a b : String × FolderRec) : Prop := b.2.total_size ≤ a.2.total_size

instance : DecidableRel sizeGE := fun _ _ => by unfold sizeGE; infer_instance

instance : IsTotal (String × FolderRec) sizeGE :=
  ⟨fun a b => (Nat.le_total b.2.total_size a.2.total_size).imp id id⟩

instance : IsTrans (String × FolderRec) sizeGE :=
  ⟨fun _ _ _ h1 h2 => Nat.le_trans h2 h1⟩

/-- The 10% similarity test against a cluster's first member:
`ref_size > 0 and abs(size - ref_size)/ref_size <= 0.10`
(exact-rational form of the float comparison). -/
def clusterClose (c : String × FolderRec) (g : List (String × FolderRec)) : Bool :=
  match g with
  | [] => false
  | ref :: _ =>
      decide (0 < ref.2.total_size) &&
        decide (((c.2.total_size : Int) - (ref.2.total_size : Int)).natAbs * 10
                  ≤ ref.2.total_size)

/-- Try to append `c` to the first cluster whose first member is close
enough; `none` if no cluster accepts it. -/
def tryPlace (c : String × FolderRec) :
    List (List (String × FolderRec)) → Option (List (List (String × FolderRec)))
  | [] => none
  | g :: gs =>
      if clusterClose c g then some ((g ++ [c]) :: gs)
      else (tryPlace c gs).map (g :: ·)

/-- One candidate of the clustering loop: join the first accepting
cluster, else open a new one at the end. -/
def clusterStep (groups : List (List (String × FolderRec)))
    (c : String × FolderRec) : List (List (String × FolderRec)) :=
  match tryPlace c groups with
  | some gs => gs
  | none => groups ++ [[c]]

/-- The clustering loop of `_analyze_duplicate_folder_candidates`. -/
def buildClusters (cands : List (String × FolderRec)) :
    List (List (String × FolderRec)) :=
  cands.foldl clusterStep []

/-- `group[0][1]["total_size"]` (clusters handed to it are non-empty). -/
def headSizeOf (c : List (String × FolderRec)) : Nat :=
  match c with
  | [] => 0
  | x :: _ => x.2.total_size

/-- The largest `total_size` in a cluster (the spec's "largest size"). -/
def maxSizeOf (c : List (String × FolderRec)) : Nat :=
  (c.map (·.2.total_size)).foldr max 0

/-- `Analyzer._analyze_duplicate_folder_candidates`, as written: note the
`if name and info["total_size"] > 10 * 1024 * 1024` retention test, which
also requires a non-empty basename. -/
def analyzeDupFoldersCode (folders : List (String × FolderRec)) : List DupFinding :=
  let retained := folders.filter fun p =>
    lowerStr (basename p.1) ≠ "" ∧ 10485760 < p.2.total_size
  let groups := groupBy (fun p => lowerStr (basename p.1)) retained
  groups.flatMap fun ng =>
    if ng.2.length < 2 then []
    else
      (buildClusters (List.insertionSort sizeGE ng.2)).filterMap fun c =>
        if 2 ≤ c.length then
          some ⟨c.map (·.1), (c.map (·.2.total_size)).sum - headSizeOf c⟩
        else none

/-- The duplicate-folder pass exactly as claim C2 words it: retention by
size alone (no basename condition), reclaimable bytes = sum minus the
largest member. -/
def claimDupFoldersOrig (folders : List (String × FolderRec)) : List DupFinding :=
  let retained := folders.filter fun p => 10485760 < p.2.total_size
  let groups := groupBy (fun p => lowerStr (basename p.1)) retained
  groups.flatMap fun ng =>
    if ng.2.length < 2 then []
    else
      (buildClusters (List.insertionSort sizeGE ng.2)).filterMap fun c =>
        if 2 ≤ c.length then
          some ⟨c.map (·.1), (c.map (·.2.total_size)).sum - maxSizeOf c⟩
        else none

/-- Claim C2 amended: retention additionally requires a non-empty
(lowercased) basename, as the source does. -/
def claimDupFoldersAmended (folders : List (String × FolderRec)) : List DupFinding :=
  let retained := folders.filter fun p =>
    lowerStr (basename p.1) ≠ "" ∧ 10485760 < p.2.total_size
  let groups := groupBy (fun p => lowerStr (basename p.1)) retained
  groups.flatMap fun ng =>
    if ng.2.length < 2 then []
    else
      (buildClusters (List.insertionSort sizeGE ng.2)).filterMap fun c =>
        if 2 ≤ c.length then
          some ⟨c.map (·.1), (c.map (·.2.total_size)).sum - maxSizeOf c⟩
        else none

/-- `Analyzer._analyze_duplicate_file_candidates`: group the files larger
than 1 MiB by `(basename, size)` and report every group of two or more. -/
def analyzeDupFilesCode (files : List FileRec) : List DupFinding :=
  let groups := groupBy (fun r => (basename r.path, r.size_bytes))
    (files.filter fun r => 1048576 < r.size_bytes)
  groups.filterMap fun kg =>
    if 2 ≤ kg.2.length then
      some ⟨kg.2.map (·.path), kg.1.2 * (kg.2.length - 1)⟩
    else none

/-! ## Comparator -/

/-- One value of a `_build_file_index` mapping. -/
structure CEntry where
  full_path : String
  size : Nat
  modified : Int
  is_dir : Bool
deriving DecidableEq

inductive CStatus where
  | identical
  | modified
  | missing_from_target
  | extra_in_target
deriving DecidableEq

/-- Python truthiness of an optional hash digest (`None` and the empty
string are falsy). -/
def truthyHash : Option String → Bool
  | none => false
  | some s => s ≠ ""

/-- `FolderComparator._compare_files`.  `hashFn` is the oracle for
`_hash_file` (`none` = read/permission failure). -/
def compareFilesM (deep : Bool) (hashFn : String → Option String) (s t : CEntry) :
    CStatus :=
  if s.size ≠ t.size then .modified
  else if s.modified ≠ t.modified then
    if deep then
      let sh := hashFn s.full_path
      let th := hashFn t.full_path
      if truthyHash sh && truthyHash th && sh == th then .identical else .modified
    else .modified
  else
    if deep then
      let sh := hashFn s.full_path
      let th := hashFn t.full_path
      if truthyHash sh && truthyHash th && sh != th then .modified else .identical
    else .identical

/-- Claim C3's wording of the file comparison: sizes differ -> modified;
sizes agree, timestamps differ -> modified unless deep scan holds and both
digests are non-null and equal; sizes and timestamps agree -> modified only
when deep scan holds and both digests are non-null and unequal. -/
def claimCompareSpec (deep : Bool) (hashFn : String → Option String) (s t : CEntry) :
    CStatus :=
  if s.size ≠ t.size then .modified
  else if s.modified ≠ t.modified then
    if deep ∧ (hashFn s.full_path).isSome ∧ (hashFn t.full_path).isSome ∧
        hashFn s.full_path = hashFn t.full_path then .identical
    else .modified
  else
    if deep ∧ (hashFn s.full_path).isSome ∧ (hashFn t.full_path).isSome ∧
        hashFn s.full_path ≠ hashFn t.full_path then .modified
    else .identical

/-- Per-path classification in `FolderComparator.compare`: merged
`is_dir`, and the entry's (tentative) status. -/
def classifyEntries (deep : Bool) (hashFn : String → Option String)
    (sOpt tOpt : Option CEntry) : Bool × CStatus :=
  let isDir := (sOpt.elim false (·.is_dir)) || (tOpt.elim false (·.is_dir))
  match sOpt, tOpt with
  | some s, some t =>
      (isDir, if isDir then .identical else compareFilesM deep hashFn s t)
  | some _, none => (isDir, .missing_from_target)
  | none, some _ => (isDir, .extra_in_target)
  | none, none => (isDir, .extra_in_target)

/-- `sorted(set(source_index) | set(target_index))`. -/
def sortedUnion (src tgt : List (String × CEntry)) : List String :=
  List.insertionSort strLe ((src.map Prod.fst ++ tgt.map Prod.fst).dedup)

/-- A `ComparisonItem` as produced by the first loop of `compare` (before
tree assembly); `is_dir` stands for `item_type == "folder"` and equally for
`children is not None`; `status` is the tentative status. -/
structure CItem where
  name : String
  relative_path : String
  is_dir : Bool
  status : CStatus
  source_size : Option Nat
  target_size : Option Nat
  source_modified : Option Int
  target_modified : Option Int
deriving DecidableEq

structure CSummary where
  identical : Nat
  modified : Nat
  missing_from_target : Nat
  extra_in_target : Nat
  total_source_size : Nat
  total_target_size : Nat
deriving DecidableEq

def zeroSummary : CSummary := ⟨0, 0, 0, 0, 0, 0⟩

structure P1State where
  items : List (String × CItem)
  summary : CSummary

/-- The body of the first `for rel_path in sorted(all_paths)` loop of
`compare`: classify, update the summary (files only), record the item. -/
def pass1Step (deep : Bool) (hashFn : String → Option String)
    (src tgt : List (String × CEntry)) (st : P1State) (p : String) : P1State :=
  let sOpt := alookup src p
  let tOpt := alookup tgt p
  let ds := classifyEntries deep hashFn sOpt tOpt
  let sm := st.summary
  let sm :=
    if ds.1 then sm
    else
      match ds.2 with
      | .identical => { sm with identical := sm.identical + 1 }
      | .modified => { sm with modified := sm.modified + 1 }
      | .missing_from_target =>
          { sm with missing_from_target := sm.missing_from_target + 1 }
      | .extra_in_target => { sm with extra_in_target := sm.extra_in_target + 1 }
  let sm :=
    { sm with
      total_source_size := sm.total_source_size + sOpt.elim 0 (·.size)
      total_target_size := sm.total_target_size + tOpt.elim 0 (·.size) }
  let item : CItem :=
    ⟨basename p, p, ds.1, ds.2, sOpt.map (·.size), tOpt.map (·.size),
      sOpt.map (·.modified), tOpt.map (·.modified)⟩
  ⟨st.items ++ [(p, item)], sm⟩

/-- The first loop of `FolderComparator.compare` over the sorted union. -/
def pass1 (deep : Bool) (hashFn : String → Option String)
    (src tgt : List (String × CEntry)) : P1State :=
  (sortedUnion src tgt).foldl (pass1Step deep hashFn src tgt) ⟨[], zeroSummary⟩

/-- The mutable part of an item during tree assembly. -/
structure TBState where
  status : CStatus
  diff : Nat
deriving DecidableEq

def tbInit (items : List (String × CItem)) : List (String × TBState) :=
  items.map fun p => (p.1, ⟨p.2.status, 0⟩)

/-- The body of the tree-assembly loop: attach the item to its parent when
`dirname` is a non-empty key bound to a folder, and if the item is (at this
moment) non-identical or carries differences, bump the parent's
`difference_count` by `1 + item.difference_count` and upgrade an
`identical` parent to `modified`. -/
def tbStep (items : List (String × CItem)) (st : List (String × TBState))
    (p : String) : List (String × TBState) :=
  let par := dirname p
  if par = "" then st
  else
    match alookup items par with
    | none => st
    | some parItem =>
        if parItem.is_dir then
          match alookup st p with
          | none => st
          | some cs =>
              if cs.status ≠ CStatus.identical ∨ 0 < cs.diff then
                aupdate st par fun ps =>
                  ⟨if ps.status = CStatus.identical then CStatus.modified else ps.status,
                    ps.diff + (1 + cs.diff)⟩
              else st
        else st

/-- The second (`tree structure`) loop of `compare`: the final
status/difference_count of every item. -/
def pass2 (items : List (String × CItem)) : List (String × TBState) :=
  (items.map Prod.fst).foldl (tbStep items) (tbInit items)

/-! ## Comparator: index construction from a filesystem -/

mutual

/-- `FolderComparator._build_file_index` on one directory: index the
statable files, then the statable non-ignored subdirectories (size 0,
`is_dir`), then recurse into the non-ignored subdirectories (which
`os.walk` descends whether or not their own stat succeeded). -/
def buildIndexDir (absp relp : String) : FSDir → List (String × CEntry)
  | .node false _ _ => []
  | .node true fs sds =>
      (fs.filterMap fun f =>
        match f.2 with
        | some st =>
            some (joinRel relp f.1, ⟨joinPath absp f.1, st.st_size, st.st_mtime, false⟩)
        | none => none)
      ++ ((sds.filter fun d => !shouldIgnore (joinPath absp d.1)).filterMap fun d =>
        match d.2.1 with
        | some st => some (joinRel relp d.1, ⟨joinPath absp d.1, 0, st.st_mtime, true⟩)
        | none => none)
      ++ buildIndexSubs absp relp sds

def buildIndexSubs (absp relp : String) :
    List (String × Option FStat × FSDir) → List (String × CEntry)
  | [] => []
  | (n, _, d) :: rest =>
      (if shouldIgnore (joinPath absp n) then []
       else buildIndexDir (joinPath absp n) (joinRel relp n) d)
        ++ buildIndexSubs absp relp rest

end

def buildFileIndex (rootPath : String) (d : FSDir) : List (String × CEntry) :=
  buildIndexDir rootPath "" d

/-- `FolderComparator.compare` end to end on two filesystem trees:
both indices, both passes, and the summary. -/
def compareFS (deep : Bool) (hashFn : String → Option String)
    (srcRoot tgtRoot : String) (s t : FSDir) :
    P1State × List (String × TBState) :=
  let src := buildFileIndex srcRoot s
  let tgt := buildFileIndex tgtRoot t
  let p1 := pass1 deep hashFn src tgt
  (p1, pass2 p1.items)

/-! ## Descendants in the assembled result tree -/

/-- The direct children of folder item `F` in the assembled tree: the
items whose `dirname` is `F` (attached because `F` is a non-empty key bound
to a folder). -/
def childKeys (items : List (String × CItem)) (F : String) : List String :=
  (items.map Prod.fst).filter fun q => dirname q = F

/-- Number of non-identical descendants (final status, files and folders)
strictly below `F` in the assembled result tree.  `fuel` bounds the
recursion depth; any `fuel ≥` the number of items is exact. -/
def nonIdentDescCount (items : List (String × CItem))
    (st : List (String × TBState)) : Nat → String → Nat
  | 0, _ => 0
  | fuel + 1, F =>
      (childKeys items F).foldl
        (fun acc q =>
          acc
            + (match alookup st q with
               | some qs => if qs.status ≠ CStatus.identical then 1 else 0
               | none => 0)
            + (match alookup items q with
               | some it => if it.is_dir then nonIdentDescCount items st fuel q else 0
               | none => 0))
        0

/-! ## The `/api/findings` filter chain -/

structure Finding where
  id : String
  category : String
  reason : String
  paths : List String
  total_bytes : Nat
deriving DecidableEq

/-- `if category: findings = [f for f in findings if f.category == category]`
(`None` and the empty string are falsy). -/
def categoryFilter (category : Option String) (fs : List Finding) : List Finding :=
  match category with
  | some c => if c ≠ "" then fs.filter (fun f => f.category == c) else fs
  | none => fs

/-- `[f for f in findings if f.risk_level == risk]`: `Finding` has no
`risk_level` attribute, so evaluating the comprehension on a non-empty
list raises `AttributeError`. -/
def riskFilter (fs : List Finding) : Except String (List Finding) :=
  match fs with
  | [] => Except.ok []
  | _ => Except.error "AttributeError: Finding object has no attribute risk_level"

/-- `[f for f in findings if f.score >= min_score]`: `Finding` has no
`score` attribute either. -/
def scoreFilter (fs : List Finding) : Except String (List Finding) :=
  match fs with
  | [] => Except.ok []
  | _ => Except.error "AttributeError: Finding object has no attribute score"

/-- The filter section of the `get_findings` endpoint.  `risk` is guarded
by truthiness, `min_score` by `is not None`. -/
def applyFindingsFilters (category risk : Option String) (minScore : Option Rat)
    (findings : List Finding) : Except String (List Finding) :=
  let fs1 := categoryFilter category findings
  match
    (match risk with
     | some r => if r ≠ "" then riskFilter fs1 else Except.ok fs1
     | none => Except.ok fs1) with
  | Except.error e => Except.error e
  | Except.ok fs2 =>
      match minScore with
      | some _ => scoreFilter fs2
      | none => Except.ok fs2

/-- Truthiness of the `risk` query parameter. -/
def riskTruthy : Option String → Bool
  | none => false
  | some r => r ≠ ""

def sampleFinding : Finding := ⟨"finding-1", "large_folder", "r", ["p"], 0⟩

/-- The merged `is_dir` of a relative path over the two indices
(`source_info.get("is_dir", False) or target_info.get("is_dir", False)`):
the path is a file entry of the union exactly when this is `false`. -/
def mergedIsDir (src tgt : List (String × CEntry)) (p : String) : Bool :=
  (alookup src p).elim false (·.is_dir) || (alookup tgt p).elim false (·.is_dir)

/-- The sum of the four status counters of a comparison summary. -/
def counterSum (sm : CSummary) : Nat :=
  sm.identical + sm.modified + sm.missing_from_target + sm.extra_in_target

/-- A two-folder map (root and one child) used to witness the propagation
invariant. -/
def sampleFolderMap : FolderMap :=
  [("/r", ⟨"/r", 0, 0, none, none⟩), ("/r/a", ⟨"/r/a", 5, 2, none, none⟩)]

/-- The `ComparisonItem` recorded for relative path `p` (the per-path part
of `pass1Step` that lands in `items_by_path`). -/
def pass1Item (deep : Bool) (hashFn : String → Option String)
    (src tgt : List (String × CEntry)) (p : String) : CItem :=
  let sOpt := alookup src p
  let tOpt := alookup tgt p
  let ds := classifyEntries deep hashFn sOpt tOpt
  ⟨basename p, p, ds.1, ds.2, sOpt.map (·.size), tOpt.map (·.size),
    sOpt.map (·.modified), tOpt.map (·.modified)⟩

/-- Source tree for the comparison counterexample: directories `a`,
`a/b`, and a 1-byte file `a/b/c`. -/
def fsSrcSample : FSDir :=
  .node true []
    [("a", some ⟨0, 0, 0, 0⟩,
      .node true []
        [("b", some ⟨0, 0, 0, 0⟩,
          .node true [("c", some ⟨1, 0, 0, 0⟩)] [])])]

/-- Target tree for the comparison counterexample: same shape, but
`a/b/c` has 2 bytes, so it compares as `modified`. -/
def fsTgtSample : FSDir :=
  .node true []
    [("a", some ⟨0, 0, 0, 0⟩,
      .node true []
        [("b", some ⟨0, 0, 0, 0⟩,
          .node true [("c", some ⟨2, 0, 0, 0⟩)] [])])]

/-- The counterexample comparison, shallow mode. -/
def cmpSample : P1State × List (String × TBState) :=
  compareFS false (fun _ => none) "/s" "/t" fsSrcSample fsTgtSample

/-! # Theorems -/

/-! ## Helper lemmas about the path primitives -/

theorem dropWhile_head_not {α} (p : α → Bool) :
    ∀ (l : List α) {a : α} {as : List α}, l.dropWhile p = a :: as → p a = false
  | [], a, as => by intro h; simp at h
  | x :: l, a, as => by
      intro h
      by_cases hx : p x
      · rw [List.dropWhile_cons, if_pos hx] at h
        exact dropWhile_head_not p l h
      · rw [List.dropWhile_cons, if_neg hx] at h
        cases h
        simpa using hx

theorem count_dropWhile_ne_slash :
    ∀ l : List Char, ((l.dropWhile (· != '/')).count '/') = l.count '/'
  | [] => rfl
  | a :: l => by
      by_cases ha : a = '/'
      · subst ha
        simp [List.dropWhile_cons]
      · have hb : (a != '/') = true := by simp [ha]
        rw [List.dropWhile_cons, if_pos hb, count_dropWhile_ne_slash l,
          List.count_cons]
        simp [ha]

theorem dirnameRev_suffix (l : List Char) : dirnameRev l <:+ l := by
  unfold dirnameRev
  split
  · exact List.dropWhile_suffix _
  · exact (List.dropWhile_suffix _).trans (List.dropWhile_suffix _)

/-- The key progress property of `dirname`: either the separator count
strictly drops, or the result is a `dirname` fixed point. -/
theorem dirnameRev_progress (l : List Char) :
    (dirnameRev l).count '/' < l.count '/' ∨ dirnameRev (dirnameRev l) = dirnameRev l := by
  by_cases hall : ((l.dropWhile (· != '/')).all (· == '/')) = true
  · right
    have h1 : dirnameRev l = l.dropWhile (· != '/') := by unfold dirnameRev; rw [if_pos hall]
    rw [h1]
    -- an all-slash list is a fixed point of `dirnameRev`
    have hdw : (l.dropWhile (· != '/')).dropWhile (· != '/') = l.dropWhile (· != '/') := by
      cases hc : l.dropWhile (· != '/') with
      | nil => rfl
      | cons c cs =>
          have hcf : ((c != '/') = false) := dropWhile_head_not (· != '/') l hc
          rw [List.dropWhile_cons, if_neg (by simp [hcf])]
    unfold dirnameRev
    rw [hdw, if_pos hall]
  · left
    have h1 : dirnameRev l = (l.dropWhile (· != '/')).dropWhile (· == '/') := by
      unfold dirnameRev; rw [if_neg hall]
    cases hc : l.dropWhile (· != '/') with
    | nil => rw [hc] at hall; simp at hall
    | cons c cs =>
        have hcf : ((c != '/') = false) := dropWhile_head_not (· != '/') l hc
        have hcs : c = '/' := by simpa using hcf
        subst hcs
        rw [h1, hc]
        rw [List.dropWhile_cons, if_pos (by simp)]
        have hsub : (cs.dropWhile (· == '/')).count '/' ≤ cs.count '/' :=
          (List.dropWhile_suffix _).sublist.count_le '/'
        have hcount : l.count '/' = cs.count '/' + 1 := by
          rw [← count_dropWhile_ne_slash l, hc, List.count_cons]
          simp
        omega

theorem dirnameRev_eq_self_iff (l : List Char) :
    dirnameRev l = l ↔ l.all (· == '/') = true := by
  constructor
  · intro h
    by_cases hall : ((l.dropWhile (· != '/')).all (· == '/')) = true
    · have h1 : dirnameRev l = l.dropWhile (· != '/') := by unfold dirnameRev; rw [if_pos hall]
      have hdl : l.dropWhile (· != '/') = l := by rw [← h1, h]
      rw [hdl] at hall
      exact hall
    · have h1 : dirnameRev l = (l.dropWhile (· != '/')).dropWhile (· == '/') := by
        unfold dirnameRev; rw [if_neg hall]
      exfalso
      cases hc : l.dropWhile (· != '/') with
      | nil => rw [hc] at hall; simp at hall
      | cons c cs =>
          have hcf : ((c != '/') = false) := dropWhile_head_not (· != '/') l hc
          have hcs : c = '/' := by simpa using hcf
          subst hcs
          rw [h1, hc, List.dropWhile_cons, if_pos (by simp)] at h
          have hlen1 : (cs.dropWhile (· == '/')).length ≤ cs.length :=
            (List.dropWhile_suffix _).sublist.length_le
          have hlen2 : ('/' :: cs).length ≤ l.length := by
            rw [← hc]; exact (List.dropWhile_suffix _).sublist.length_le
          have : l.length = (cs.dropWhile (· == '/')).length := by rw [← h]
          simp only [List.length_cons] at hlen2
          omega
  · intro h
    have hdw : l.dropWhile (· != '/') = l := by
      cases l with
      | nil => rfl
      | cons c cs =>
          have : (c == '/') = true := by
            have := List.all_eq_true.mp h c (by simp)
            simpa using this
          rw [List.dropWhile_cons, if_neg (by simp_all)]
    unfold dirnameRev
    rw [hdw, if_pos h]

theorem toList_mk (l : List Char) : (String.mk l).toList = l := rfl

theorem dirname_toList (p : String) :
    (dirname p).toList = (dirnameRev p.toList.reverse).reverse := rfl

theorem dirname_eq_self_iff (p : String) : dirname p = p ↔ allSlash p = true := by
  constructor
  · intro h
    have h2 : (dirnameRev p.toList.reverse).reverse = p.toList := congrArg String.toList h
    have h3 : dirnameRev p.toList.reverse = p.toList.reverse := by
      have h4 := congrArg List.reverse h2
      rwa [List.reverse_reverse] at h4
    have h4 := (dirnameRev_eq_self_iff _).mp h3
    unfold allSlash
    rw [List.all_eq_true] at h4 ⊢
    intro c hc
    exact h4 c (by simpa using hc)
  · intro h
    unfold allSlash at h
    have h4 : (p.toList.reverse).all (· == '/') = true := by
      rw [List.all_eq_true] at h ⊢
      intro c hc
      exact h c (by simpa using hc)
    have h3 := (dirnameRev_eq_self_iff _).mpr h4
    show String.mk (dirnameRev p.toList.reverse).reverse = p
    rw [h3, List.reverse_reverse]
    cases p
    rfl

theorem sepCount_dirname_progress (p : String) :
    sepCount (dirname p) < sepCount p ∨ dirname (dirname p) = dirname p := by
  rcases dirnameRev_progress p.toList.reverse with h | h
  · left
    have e1 : sepCount (dirname p) = (dirnameRev p.toList.reverse).count '/' := by
      unfold sepCount
      rw [dirname_toList, List.count_reverse]
    have e2 : sepCount p = (p.toList.reverse).count '/' := by
      unfold sepCount
      rw [List.count_reverse]
    rw [e1, e2]
    exact h
  · right
    show String.mk
        (dirnameRev (String.mk (dirnameRev p.toList.reverse).reverse).toList.reverse).reverse
        = String.mk (dirnameRev p.toList.reverse).reverse
    rw [toList_mk, List.reverse_reverse, h]

theorem dirname_prefix_self (p : String) : (dirname p).toList <+: p.toList := by
  rw [dirname_toList]
  have h := dirnameRev_suffix p.toList.reverse
  have h2 := List.reverse_prefix.mpr h
  simpa using h2

/-! ## Helper lemmas about `lexLe` -/

theorem lexLe_total : ∀ a b : List Char, lexLe a b = true ∨ lexLe b a = true
  | [], _ => Or.inl rfl
  | _ :: _, [] => Or.inr rfl
  | a :: as, b :: bs => by
      rcases Nat.lt_trichotomy a.toNat b.toNat with h | h | h
      · left; simp [lexLe, h]
      · have hax : ¬ a.toNat < b.toNat := by omega
        have hbx : ¬ b.toNat < a.toNat := by omega
        rcases lexLe_total as bs with ih | ih
        · left; simp [lexLe, hax, hbx, ih]
        · right; simp [lexLe, hax, hbx, ih]
      · right; simp [lexLe, h]

theorem lexLe_trans :
    ∀ a b c : List Char, lexLe a b = true → lexLe b c = true → lexLe a c = true
  | [], _, _ => by intro _ _; rfl
  | _ :: _, [], _ => by intro h _; simp [lexLe] at h
  | _ :: _, _ :: _, [] => by intro _ h; simp [lexLe] at h
  | a :: as, b :: bs, c :: cs => by
      intro h1 h2
      simp only [lexLe] at h1 h2 ⊢
      rcases Nat.lt_trichotomy a.toNat b.toNat with hab | hab | hab
      · rcases Nat.lt_trichotomy b.toNat c.toNat with hbc | hbc | hbc
        · have : a.toNat < c.toNat := by omega
          simp [this]
        · have : a.toNat < c.toNat := by omega
          simp [this]
        · rw [if_neg (by omega), if_pos hbc] at h2
          exact absurd h2 (by simp)
      · rw [if_neg (by omega), if_neg (by omega)] at h1
        rcases Nat.lt_trichotomy b.toNat c.toNat with hbc | hbc | hbc
        · have : a.toNat < c.toNat := by omega
          simp [this]
        · rw [if_neg (by omega), if_neg (by omega)] at h2 ⊢
          exact lexLe_trans as bs cs h1 h2
        · rw [if_neg (by omega), if_pos hbc] at h2
          exact absurd h2 (by simp)
      · rw [if_neg (by omega), if_pos hab] at h1
        exact absurd h1 (by simp)

theorem char_toNat_inj {a b : Char} (h : a.toNat = b.toNat) : a = b :=
  Char.ext (UInt32.ext h)

theorem lexLe_antisymm :
    ∀ a b : List Char, lexLe a b = true → lexLe b a = true → a = b
  | [], [] => by intro _ _; rfl
  | [], _ :: _ => by intro _ h; simp [lexLe] at h
  | _ :: _, [] => by intro h _; simp [lexLe] at h
  | a :: as, b :: bs => by
      intro h1 h2
      simp only [lexLe] at h1 h2
      rcases Nat.lt_trichotomy a.toNat b.toNat with hab | hab | hab
      · rw [if_neg (by omega), if_pos hab] at h2
        exact absurd h2 (by simp)
      · rw [if_neg (by omega), if_neg (by omega)] at h1 h2
        have heq : a = b := char_toNat_inj hab
        rw [heq, lexLe_antisymm as bs h1 h2]
      · rw [if_neg (by omega), if_pos hab] at h1
        exact absurd h1 (by simp)

theorem prefix_lexLe : ∀ {a b : List Char}, a <+: b → lexLe a b = true
  | [], _, _ => rfl
  | a :: as, b, h => by
      rcases h with ⟨t, ht⟩
      cases b with
      | nil => simp at ht
      | cons b' bs =>
          have hab : a = b' := by
            have := congrArg (List.head? ·) ht
            simpa using this
          subst hab
          have has : as <+: bs := ⟨t, by simpa using ht⟩
          show lexLe (a :: as) (a :: bs) = true
          simp only [lexLe]
          rw [if_neg (Nat.lt_irrefl _), if_neg (Nat.lt_irrefl _)]
          exact prefix_lexLe has

instance : IsTotal String strLe := ⟨fun a b => lexLe_total a.toList b.toList⟩

instance : IsTrans String strLe :=
  ⟨fun a b c h1 h2 => lexLe_trans a.toList b.toList c.toList h1 h2⟩

theorem strLe_antisymm {a b : String} (h1 : strLe a b) (h2 : strLe b a) : a = b := by
  have h3 := lexLe_antisymm a.toList b.toList h1 h2
  exact congrArg String.mk h3

theorem strLe_dirname (p : String) : strLe (dirname p) p :=
  prefix_lexLe (dirname_prefix_self p)

/-! ## Association-list lemmas -/

theorem alookup_aupdate_self {β : Type} (m : List (String × β)) (k : String) (f : β → β) :
    alookup (aupdate m k f) k = (alookup m k).map f := by
  induction m with
  | nil => rfl
  | cons p rest ih =>
      obtain ⟨k', v⟩ := p
      by_cases h : k' = k
      · simp [aupdate, alookup, h]
      · simp [aupdate, alookup, h, ih]

theorem alookup_aupdate_ne {β : Type} (m : List (String × β)) (k k' : String)
    (f : β → β) (h : k' ≠ k) : alookup (aupdate m k f) k' = alookup m k' := by
  induction m with
  | nil => rfl
  | cons p rest ih =>
      obtain ⟨k₀, v⟩ := p
      by_cases h0 : k₀ = k
      · subst h0
        have hne : ¬ (k₀ = k') := fun hh => h hh.symm
        simp [aupdate, alookup, hne, ih]
      · by_cases h1 : k₀ = k'
        · subst h1
          simp [aupdate, alookup, h0]
        · simp [aupdate, alookup, h0, h1, ih]

theorem keys_aupdate {β : Type} (m : List (String × β)) (k : String) (f : β → β) :
    (aupdate m k f).map Prod.fst = m.map Prod.fst := by
  induction m with
  | nil => rfl
  | cons p rest ih =>
      obtain ⟨k₀, v⟩ := p
      by_cases h0 : k₀ = k <;> simp [aupdate, h0, ih]

theorem alookup_isSome_iff_mem {β : Type} (m : List (String × β)) (k : String) :
    (alookup m k).isSome ↔ k ∈ m.map Prod.fst := by
  induction m with
  | nil => simp [alookup]
  | cons p rest ih =>
      obtain ⟨k₀, v⟩ := p
      by_cases h0 : k₀ = k
      · subst h0; simp [alookup]
      · simp [alookup, if_neg h0, ih, Ne.symm h0]

theorem alookup_append {β : Type} (m1 m2 : List (String × β)) (k : String) :
    alookup (m1 ++ m2) k = (alookup m1 k).or (alookup m2 k) := by
  induction m1 with
  | nil => simp [alookup]
  | cons p rest ih =>
      obtain ⟨k₀, v⟩ := p
      by_cases h0 : k₀ = k
      · simp [alookup, h0]
      · simp [alookup, h0, ih]

/-! ## Claim C6: the `risk` / `min_score` filters -/

/-- **C6, counterexample.**  The claim says supplying `risk` yields the
same successful response as omitting it; but on a scan with one finding,
`risk=high` makes the endpoint evaluate `f.risk_level`, which `Finding`
does not define, so the request errors instead. -/
theorem C6_counterexample :
    applyFindingsFilters none (some "high") none [sampleFinding]
      ≠ applyFindingsFilters none none none [sampleFinding] := by
  intro h
  have h1 : applyFindingsFilters none (some "high") none [sampleFinding]
      = Except.error "AttributeError: Finding object has no attribute risk_level" := rfl
  have h2 : applyFindingsFilters none none none [sampleFinding]
      = Except.ok [sampleFinding] := rfl
  rw [h1, h2] at h
  exact Except.noConfusion h

/-- **C6, amended.**  The `risk` and `min_score` parameters never filter:
when the category-filtered findings list is empty (or the parameters are
absent/falsy) the response is unchanged, but a truthy `risk` or a present
`min_score` over a non-empty findings list raises `AttributeError`
(`Finding` has neither `risk_level` nor `score`), rather than acting as a
dead no-op filter. -/
theorem C6_amended_filters_error_or_noop (category risk : Option String)
    (minScore : Option Rat) (findings : List Finding) :
    applyFindingsFilters category risk minScore findings =
      (if riskTruthy risk && !(categoryFilter category findings).isEmpty then
        Except.error "AttributeError: Finding object has no attribute risk_level"
      else if minScore.isSome && !(categoryFilter category findings).isEmpty then
        Except.error "AttributeError: Finding object has no attribute score"
      else Except.ok (categoryFilter category findings)) := by
  unfold applyFindingsFilters riskTruthy
  rcases risk with _ | r
  · rcases minScore with _ | ms
    · simp
    · cases hb : categoryFilter category findings with
      | nil => simp [scoreFilter, hb]
      | cons f fs => simp [scoreFilter, hb]
  · by_cases hr : r = ""
    · subst hr
      rcases minScore with _ | ms
      · simp
      · cases hb : categoryFilter category findings with
        | nil => simp [scoreFilter, hb]
        | cons f fs => simp [scoreFilter, hb]
    · cases hb : categoryFilter category findings with
      | nil =>
          rcases minScore with _ | ms
          · simp [riskFilter, hb, hr]
          · simp [riskFilter, scoreFilter, hb, hr]
      | cons f fs => simp [riskFilter, hb, hr]

/-! ## Claim C10: file/folder type conflicts -/

/-- **C10.**  When a relative path is a directory on one side and a
regular file on the other, `compare` classifies it as a folder with
tentative status `identical`, independently of both entries' sizes,
timestamps and of the hashing oracle (no content comparison happens). -/
theorem C10_type_conflict_is_identical_folder (deep : Bool)
    (hashFn : String → Option String) (fp1 fp2 : String) (sz1 sz2 : Nat)
    (m1 m2 : Int) :
    classifyEntries deep hashFn (some ⟨fp1, sz1, m1, true⟩) (some ⟨fp2, sz2, m2, false⟩)
        = (true, CStatus.identical) ∧
      classifyEntries deep hashFn (some ⟨fp1, sz1, m1, false⟩) (some ⟨fp2, sz2, m2, true⟩)
        = (true, CStatus.identical) :=
  ⟨rfl, rfl⟩

/-! ## Claim C3: the file comparison and null hashes -/

/-- **C3.**  `_compare_files` returns `modified` when sizes differ; with
equal sizes and differing timestamps it returns `modified` unless deep
scan is on and both digests are non-null and equal (then `identical`);
with equal sizes and timestamps it returns `modified` only when deep scan
is on and both digests are non-null and unequal, else `identical`.
Consequently a null hash (read failure) never changes the verdict reached
without hashes, in either direction.  The hypothesis states that the hash
oracle never returns an empty digest, which is true of
`hashlib.sha256().hexdigest()` (always 64 characters). -/
theorem C3_compare_files_spec (deep : Bool) (hashFn : String → Option String)
    (hno : ∀ p s, hashFn p = some s → s ≠ "") (s t : CEntry) :
    compareFilesM deep hashFn s t = claimCompareSpec deep hashFn s t ∧
      ((hashFn s.full_path = none ∨ hashFn t.full_path = none) →
        compareFilesM deep hashFn s t = compareFilesM false hashFn s t) := by
  constructor
  · unfold compareFilesM claimCompareSpec
    rcases hs : hashFn s.full_path with _ | a <;>
      rcases ht : hashFn t.full_path with _ | b <;>
        by_cases hsz : s.size ≠ t.size <;>
          by_cases hts : s.modified ≠ t.modified <;>
            by_cases hd : deep
    all_goals
      first
      | (simp [truthyHash, hs, ht, hsz, hts, hd]; done)
      | (have ha := hno s.full_path a hs
         have hb := hno t.full_path b ht
         by_cases hab : a = b <;>
           simp [truthyHash, hs, ht, hsz, hts, hd, hab, ha, hb])
  · intro hnull
    unfold compareFilesM
    rcases hnull with h | h <;>
      by_cases hsz : s.size ≠ t.size <;>
        by_cases hts : s.modified ≠ t.modified <;>
          by_cases hd : deep <;>
            simp [truthyHash, h, hsz, hts, hd]

/-- Witness for C3 at a concrete oracle and entry pair. -/
theorem C3_compare_files_spec_witness :
    compareFilesM true (fun _ => some "h") ⟨"/s/a", 1, 5, false⟩ ⟨"/t/a", 1, 7, false⟩
        = claimCompareSpec true (fun _ => some "h") ⟨"/s/a", 1, 5, false⟩
            ⟨"/t/a", 1, 7, false⟩ ∧
      (((fun _ : String => some "h") "/s/a" = none ∨
          (fun _ : String => some "h") "/t/a" = none) →
        compareFilesM true (fun _ => some "h") ⟨"/s/a", 1, 5, false⟩ ⟨"/t/a", 1, 7, false⟩
          = compareFilesM false (fun _ => some "h") ⟨"/s/a", 1, 5, false⟩
              ⟨"/t/a", 1, 7, false⟩) :=
  C3_compare_files_spec true (fun _ => some "h")
    (fun _ s h => by cases h; decide) ⟨"/s/a", 1, 5, false⟩ ⟨"/t/a", 1, 7, false⟩

/-! ## Claim C8: an unreadable root -/

theorem propagate_singleton (r : String) (rec : FolderRec) :
    propagateFolderSizes [(r, rec)] = [(r, rec)] := by
  unfold propagateFolderSizes
  show List.foldl propStep [(r, rec)] (List.insertionSort depthGE [r]) = [(r, rec)]
  have hsort : List.insertionSort depthGE [r] = [r] := rfl
  rw [hsort]
  show propStep [(r, rec)] r = [(r, rec)]
  by_cases hp : dirname r = r
  · simp [propStep, hp]
  · have hl : alookup [(r, rec)] (dirname r) = none := by
      have : ¬ (r = dirname r) := fun h => hp h.symm
      simp [alookup, this]
    simp [propStep, hp, hl]

/-- **C8.**  A permission failure on the root path itself (`os.walk`
yields nothing, and `scan`'s `except PermissionError` guard absorbs any
root-level error) still returns normally: the file list is empty and the
folder map holds exactly the pre-inserted zero-initialised root record.
The statement is universal over the unreadable directory's contents and
over all per-entry stat outcomes (including failures): no per-entry error
ever aborts the scan, which is a total function of the modelled
filesystem. -/
theorem C8_unreadable_root_scan (root : String) (fs : List (String × Option FStat))
    (sds : List (String × Option FStat × FSDir)) :
    scanModel root (FSDir.node false fs sds) = ([], [(root, zeroFolder root)]) := by
  have h1 : walkFS root (FSDir.node false fs sds) = [] := rfl
  unfold scanModel
  rw [h1]
  have h2 : scanWalk [] ([], [(root, zeroFolder root)]) = ([], [(root, zeroFolder root)]) :=
    rfl
  rw [h2]
  show (([] : List FileRec), propagateFolderSizes [(root, zeroFolder root)])
      = ([], [(root, zeroFolder root)])
  rw [propagate_singleton]

/-! ## Claim C5: the summary counters count exactly the file entries -/

theorem classify_fst (deep : Bool) (hashFn : String → Option String)
    (sOpt tOpt : Option CEntry) :
    (classifyEntries deep hashFn sOpt tOpt).1
      = ((sOpt.elim false (·.is_dir)) || (tOpt.elim false (·.is_dir))) := by
  cases sOpt <;> cases tOpt <;> rfl

theorem pass1Step_counterSum (deep : Bool) (hashFn : String → Option String)
    (src tgt : List (String × CEntry)) (st : P1State) (p : String) :
    counterSum (pass1Step deep hashFn src tgt st p).summary
      = counterSum st.summary + (if mergedIsDir src tgt p then 0 else 1) := by
  unfold pass1Step
  rcases hds : classifyEntries deep hashFn (alookup src p) (alookup tgt p) with ⟨d, st0⟩
  have hfst := classify_fst deep hashFn (alookup src p) (alookup tgt p)
  rw [hds] at hfst
  have hmd : mergedIsDir src tgt p = d := by rw [mergedIsDir, ← hfst]
  rw [hmd]
  cases d
  · cases st0 <;> simp [hds, counterSum] <;> omega
  · simp [hds, counterSum]

theorem pass1_sum_aux (deep : Bool) (hashFn : String → Option String)
    (src tgt : List (String × CEntry)) :
    ∀ (L : List String) (st : P1State),
      counterSum (L.foldl (pass1Step deep hashFn src tgt) st).summary
        = counterSum st.summary + L.countP (fun p => !(mergedIsDir src tgt p)) := by
  intro L
  induction L with
  | nil => intro st; simp
  | cons p L ih =>
      intro st
      rw [List.foldl_cons, ih, pass1Step_counterSum]
      rw [List.countP_cons]
      by_cases hd : mergedIsDir src tgt p = true
      · simp [hd]
      · simp only [Bool.not_eq_true] at hd
        simp [hd]
        omega

/-- **C5.**  For every comparison, `identical + modified +
missing_from_target + extra_in_target` equals the number of file entries
in the union of the two indices (paths whose merged `is_dir` is false);
directory entries contribute to no status counter. -/
theorem C5_summary_counts_file_entries (deep : Bool)
    (hashFn : String → Option String) (src tgt : List (String × CEntry)) :
    counterSum (pass1 deep hashFn src tgt).summary
      = (sortedUnion src tgt).countP (fun p => !(mergedIsDir src tgt p)) := by
  unfold pass1
  rw [pass1_sum_aux]
  simp [counterSum, zeroSummary]

/-! ## Claim C9: the streaming scan records the same results -/

theorem asyncTripleFiles_proj (r : String) :
    ∀ (entries : List (String × Option FStat)) (ast : AsyncState),
      (asyncTripleFiles r ast entries).files
          = (scanTripleFiles r (ast.files, ast.folders) entries).1 ∧
        (asyncTripleFiles r ast entries).folders
          = (scanTripleFiles r (ast.files, ast.folders) entries).2 := by
  intro entries
  induction entries with
  | nil => intro ast; exact ⟨rfl, rfl⟩
  | cons e rest ih =>
      intro ast
      rcases e with ⟨n, st?⟩
      cases st? with
      | none =>
          simpa [asyncTripleFiles, scanTripleFiles] using ih ast
      | some st =>
          have h := ih { ast with
            files := ast.files ++ [mkFileRec r n st]
            folders := updateFolderStats ast.folders r st
            fileCount := ast.fileCount + 1
            totalBytes := ast.totalBytes + st.st_size }
          simpa [asyncTripleFiles, scanTripleFiles] using h

theorem asyncStep_proj (rootPath : String) (timeFn : Nat → Int) (startTime : Int)
    (cb : Bool) (st : AsyncState) (tr : String × List (String × Option FStat)) :
    (asyncStep rootPath timeFn startTime cb st tr).files
        = (scanTripleFiles tr.1 (st.files, ensureFolder st.folders tr.1) tr.2).1 ∧
      (asyncStep rootPath timeFn startTime cb st tr).folders
        = (scanTripleFiles tr.1 (st.files, ensureFolder st.folders tr.1) tr.2).2 := by
  have h := asyncTripleFiles_proj tr.1 tr.2 { st with folders := ensureFolder st.folders tr.1 }
  unfold asyncStep
  dsimp only
  constructor
  · split
    · split
      · simpa using h.1
      · simpa using h.1
    · simpa using h.1
  · split
    · split
      · simpa using h.2
      · simpa using h.2
    · simpa using h.2

theorem scanAsync_walk_proj (rootPath : String) (timeFn : Nat → Int) (startTime : Int)
    (cb : Bool) :
    ∀ (trace : List (String × List (String × Option FStat))) (ast : AsyncState),
      ((trace.foldl (asyncStep rootPath timeFn startTime cb) ast).files,
        (trace.foldl (asyncStep rootPath timeFn startTime cb) ast).folders)
        = scanWalk trace (ast.files, ast.folders) := by
  intro trace
  induction trace with
  | nil => intro ast; rfl
  | cons tr rest ih =>
      intro ast
      rw [List.foldl_cons]
      have hstep := asyncStep_proj rootPath timeFn startTime cb ast tr
      have hrec := ih (asyncStep rootPath timeFn startTime cb ast tr)
      rw [hrec, hstep.1, hstep.2]
      rfl

/-- **C9.**  Over the same filesystem, the synchronous scan and the
streaming scan record identical `(files, folders)` results, for every
time-oracle and whether or not a progress callback is installed: the
progress machinery changes only the emission bookkeeping. -/
theorem C9_scan_async_agrees (rootPath : String) (d : FSDir) (timeFn : Nat → Int)
    (cb : Bool) :
    (scanAsyncModel rootPath d timeFn cb).files = (scanModel rootPath d).1 ∧
      (scanAsyncModel rootPath d timeFn cb).folders = (scanModel rootPath d).2 := by
  unfold scanAsyncModel scanModel
  have h := scanAsync_walk_proj rootPath timeFn (timeFn 0) cb (walkFS rootPath d)
    ⟨[], [(rootPath, zeroFolder rootPath)], 0, 0, timeFn 1, 2, []⟩
  have h1 := congrArg Prod.fst h
  have h2 := congrArg Prod.snd h
  simp only at h1 h2
  exact ⟨h1, by simpa using congrArg propagateFolderSizes h2⟩

/-! ## Grouping lemmas: `defaultdict(list)` groups are in-order filters -/

theorem dedupFirst_cons {κ : Type} [DecidableEq κ] (x : κ) (xs : List κ) :
    dedupFirst (x :: xs) = x :: dedupFirst (xs.filter (fun y => y ≠ x)) := by
  simp [dedupFirst]

theorem mem_dedupFirst {κ : Type} [DecidableEq κ] :
    ∀ (l : List κ) (a : κ), (a ∈ dedupFirst l ↔ a ∈ l)
  | [], a => by simp [dedupFirst]
  | x :: xs, a => by
      rw [dedupFirst_cons]
      have ih := mem_dedupFirst (xs.filter (fun y => y ≠ x)) a
      rw [List.mem_cons, ih, List.mem_filter, List.mem_cons]
      by_cases hax : a = x <;> simp [hax]
termination_by l => l.length
decreasing_by
  simp only [List.length_cons]
  exact Nat.lt_succ_of_le (List.length_filter_le _ _)

theorem glookup_addToGroup_self {κ α : Type} [DecidableEq κ] (k : κ) (v : α) :
    ∀ g : List (κ × List α),
      glookup (addToGroup k v g) k = some ((glookup g k).getD [] ++ [v])
  | [] => by simp [addToGroup, glookup]
  | (k', vs) :: rest => by
      by_cases h : k' = k
      · subst h
        simp [addToGroup, glookup]
      · simp [addToGroup, glookup, h, glookup_addToGroup_self k v rest]

theorem glookup_addToGroup_ne {κ α : Type} [DecidableEq κ] (k k' : κ) (v : α)
    (hne : k' ≠ k) :
    ∀ g : List (κ × List α), glookup (addToGroup k v g) k' = glookup g k'
  | [] => by
      have h2 : ¬ (k = k') := fun h => hne h.symm
      simp [addToGroup, glookup, h2]
  | (k₀, vs) :: rest => by
      by_cases h : k₀ = k
      · subst h
        have h2 : ¬ (k₀ = k') := fun hh => hne hh.symm
        simp [addToGroup, glookup, h2]
      · by_cases h1 : k₀ = k'
        · subst h1
          simp [addToGroup, glookup, h]
        · simp [addToGroup, glookup, h, h1, glookup_addToGroup_ne k k' v hne rest]

theorem ogAppend_assoc {α : Type} (o : Option (List α)) (l1 l2 : List α) :
    ogAppend (ogAppend o l1) l2 = ogAppend o (l1 ++ l2) := by
  rcases o with _ | vs
  · cases l1 <;> cases l2 <;> simp [ogAppend]
  · simp [ogAppend]

theorem glookup_foldl_addToGroup {κ α : Type} [DecidableEq κ] (key : α → κ) :
    ∀ (l : List α) (acc : List (κ × List α)) (k : κ),
      glookup (l.foldl (fun a x => addToGroup (key x) x a) acc) k
        = ogAppend (glookup acc k) (l.filter (fun x => key x = k)) := by
  intro l
  induction l with
  | nil =>
      intro acc k
      rcases hacc : glookup acc k with _ | vs <;> simp [ogAppend, hacc]
  | cons x xs ih =>
      intro acc k
      rw [List.foldl_cons, ih]
      by_cases hk : key x = k
      · subst hk
        rw [glookup_addToGroup_self]
        rw [show (List.filter (fun y => decide (key y = key x)) (x :: xs))
            = x :: List.filter (fun y => decide (key y = key x)) xs by simp]
        rcases hacc : glookup acc (key x) with _ | vs
        · simp [ogAppend]
        · simp [ogAppend]
      · rw [glookup_addToGroup_ne _ _ _ (fun h => hk h.symm)]
        rw [show (List.filter (fun y => decide (key y = k)) (x :: xs))
            = List.filter (fun y => decide (key y = k)) xs by simp [hk]]

theorem keys_addToGroup {κ α : Type} [DecidableEq κ] (k : κ) (v : α) :
    ∀ g : List (κ × List α),
      (addToGroup k v g).map Prod.fst
        = (if k ∈ g.map Prod.fst then g.map Prod.fst else g.map Prod.fst ++ [k])
  | [] => by simp [addToGroup]
  | (k₀, vs) :: rest => by
      by_cases h : k₀ = k
      · subst h
        simp [addToGroup]
      · have := keys_addToGroup k v rest
        by_cases hm : k ∈ rest.map Prod.fst
        · simp [addToGroup, h, hm, this, Ne.symm h]
        · simp [addToGroup, h, hm, this, Ne.symm h]

theorem keys_foldl_addToGroup {κ α : Type} [DecidableEq κ] (key : α → κ) :
    ∀ (l : List α) (acc : List (κ × List α)),
      (l.foldl (fun a x => addToGroup (key x) x a) acc).map Prod.fst
        = acc.map Prod.fst
            ++ dedupFirst ((l.map key).filter (fun k => k ∉ acc.map Prod.fst)) := by
  intro l
  induction l with
  | nil => intro acc; simp [dedupFirst]
  | cons x xs ih =>
      intro acc
      rw [List.foldl_cons, ih, keys_addToGroup]
      by_cases hm : key x ∈ acc.map Prod.fst
      · rw [if_pos hm]
        have hfeq : (List.map key (x :: xs)).filter
              (fun k => k ∉ acc.map Prod.fst)
            = (List.map key xs).filter (fun k => k ∉ acc.map Prod.fst) := by
          rw [List.map_cons, List.filter_cons]
          simp [hm]
        rw [hfeq]
      · rw [if_neg hm]
        have hfeq : (List.map key (x :: xs)).filter
              (fun k => k ∉ acc.map Prod.fst)
            = key x :: (List.map key xs).filter (fun k => k ∉ acc.map Prod.fst) := by
          rw [List.map_cons, List.filter_cons]
          simp [hm]
        rw [hfeq, dedupFirst_cons, List.append_assoc]
        have hff : ((List.map key xs).filter (fun k => k ∉ acc.map Prod.fst)).filter
              (fun y => y ≠ key x)
            = (List.map key xs).filter
                (fun k => k ∉ acc.map Prod.fst ++ [key x]) := by
          rw [List.filter_filter]
          apply List.filter_congr
          intro y _
          by_cases h1 : y ∈ acc.map Prod.fst <;> by_cases h2 : y = key x <;>
            simp [h1, h2]
        rw [hff]
        rfl

theorem nodup_keys_foldl_addToGroup {κ α : Type} [DecidableEq κ] (key : α → κ) :
    ∀ (l : List α) (acc : List (κ × List α)), (acc.map Prod.fst).Nodup →
      ((l.foldl (fun a x => addToGroup (key x) x a) acc).map Prod.fst).Nodup := by
  intro l
  induction l with
  | nil => intro acc h; simpa using h
  | cons x xs ih =>
      intro acc h
      rw [List.foldl_cons]
      apply ih
      rw [keys_addToGroup]
      by_cases hm : key x ∈ acc.map Prod.fst
      · simpa [hm] using h
      · rw [if_neg hm]
        simp [List.nodup_append, h, hm]

theorem assoc_eq_of_glookup {κ α : Type} [DecidableEq κ] :
    ∀ (g : List (κ × List α)) (f : κ → List α),
      (g.map Prod.fst).Nodup →
      (∀ k ∈ g.map Prod.fst, glookup g k = some (f k)) →
      g = (g.map Prod.fst).map (fun k => (k, f k))
  | [], _, _, _ => rfl
  | (k, v) :: rest, f, hnd, h => by
      have hk := h k (by simp)
      rw [show glookup ((k, v) :: rest) k = some v by simp [glookup]] at hk
      have hv : v = f k := by injection hk
      have hknotin : k ∉ rest.map Prod.fst := by
        have := hnd
        simp only [List.map_cons, List.nodup_cons] at this
        exact this.1
      have hrest : ∀ k' ∈ rest.map Prod.fst, glookup rest k' = some (f k') := by
        intro k' hk'
        have hne : ¬ (k = k') := fun hh => hknotin (hh ▸ hk')
        have := h k' (by simp [hk'])
        rwa [show glookup ((k, v) :: rest) k' = glookup rest k' by simp [glookup, hne]]
          at this
      have ihr := assoc_eq_of_glookup rest f
        (by simpa using (List.nodup_cons.mp (by simpa using hnd)).2) hrest
      simp only [List.map_cons]
      rw [hv, ← ihr]

/-- The central grouping fact: a `defaultdict(list)` built by one pass
holds, for each distinct key in first-occurrence order, exactly the
matching elements in list order. -/
theorem groupBy_eq {κ α : Type} [DecidableEq κ] (key : α → κ) (l : List α) :
    groupBy key l
      = (dedupFirst (l.map key)).map (fun k => (k, l.filter (fun x => key x = k))) := by
  have hkeys : (groupBy key l).map Prod.fst = dedupFirst (l.map key) := by
    have := keys_foldl_addToGroup key l []
    simpa [groupBy] using this
  have hnd : ((groupBy key l).map Prod.fst).Nodup :=
    nodup_keys_foldl_addToGroup key l [] (by simp)
  have hlook : ∀ k ∈ (groupBy key l).map Prod.fst,
      glookup (groupBy key l) k = some (l.filter (fun x => key x = k)) := by
    intro k hk
    have h1 : glookup (groupBy key l) k
        = ogAppend none (l.filter (fun x => key x = k)) := by
      have := glookup_foldl_addToGroup key l [] k
      simpa [groupBy, glookup] using this
    rw [hkeys, mem_dedupFirst, List.mem_map] at hk
    obtain ⟨x, hx, hkx⟩ := hk
    have hne : l.filter (fun y => key y = k) ≠ [] := by
      intro hempty
      have : x ∈ l.filter (fun y => key y = k) := by
        rw [List.mem_filter]
        exact ⟨hx, by simp [hkx]⟩
      rw [hempty] at this
      exact absurd this (List.not_mem_nil x)
    rw [h1]
    cases hf : l.filter (fun y => key y = k) with
    | nil => exact absurd hf hne
    | cons a as => simp [ogAppend]
  have := assoc_eq_of_glookup (groupBy key l)
    (fun k => l.filter (fun x => key x = k)) hnd hlook
  rw [this, hkeys]

/-! ## Claim C7: duplicate-file candidates -/

/-- **C7.**  The duplicate-file pass keys files by `(basename, size)` over
the files strictly larger than 1 MiB (so a file of exactly `1024²` bytes
never participates), and emits, per distinct qualifying key with at least
two entries and in first-occurrence order, exactly one finding whose
`paths` are all that key's entries in file-list order and whose
`total_bytes` is `size * (count - 1)`. -/
theorem C7_duplicate_file_candidates (files : List FileRec) :
    analyzeDupFilesCode files
      = (dedupFirst ((files.filter (fun r => 1048576 < r.size_bytes)).map
            (fun r => (basename r.path, r.size_bytes)))).filterMap
          (fun k =>
            let g := (files.filter (fun r => 1048576 < r.size_bytes)).filter
              (fun r => (basename r.path, r.size_bytes) = k)
            if 2 ≤ g.length then some ⟨g.map (·.path), k.2 * (g.length - 1)⟩
            else none) := by
  unfold analyzeDupFilesCode
  rw [groupBy_eq]
  rw [List.filterMap_map]
  rfl

/-! ## Claim C2: duplicate-folder clustering -/

theorem tryPlace_eq (c : String × FolderRec) :
    ∀ (groups gs' : List (List (String × FolderRec))),
      tryPlace c groups = some gs' →
      ∃ pre g post, groups = pre ++ g :: post ∧ gs' = pre ++ (g ++ [c]) :: post
  | [], gs', h => by simp [tryPlace] at h
  | g :: gs, gs', h => by
      by_cases hcl : clusterClose c g = true
      · rw [tryPlace, if_pos hcl] at h
        refine ⟨[], g, gs, rfl, ?_⟩
        simpa using h.symm
      · rw [tryPlace, if_neg hcl] at h
        rcases hrec : tryPlace c gs with _ | gs₀
        · rw [hrec] at h; simp at h
        · rw [hrec] at h
          have h2 : gs' = g :: gs₀ := by
            rw [show Option.map (g :: ·) (some gs₀) = some (g :: gs₀) from rfl] at h
            exact (Option.some.inj h).symm
          obtain ⟨pre, g₀, post, hg, hg'⟩ := tryPlace_eq c gs gs₀ hrec
          exact ⟨g :: pre, g₀, post, by simp [hg], by simp [h2, hg']⟩

theorem headSizeOf_append (g : List (String × FolderRec)) (c : String × FolderRec)
    (hne : g ≠ []) : headSizeOf (g ++ [c]) = headSizeOf g := by
  cases g with
  | nil => exact absurd rfl hne
  | cons x t => rfl

/-- Invariant of the clustering loop: when the input is sorted by size
descending, every cluster stays non-empty and its first member's size
bounds all members. -/
theorem clusters_foldl_inv :
    ∀ (cands : List (String × FolderRec)) (groups : List (List (String × FolderRec))),
      List.Pairwise sizeGE cands →
      (∀ g ∈ groups, g ≠ [] ∧ (∀ y ∈ g, y.2.total_size ≤ headSizeOf g) ∧
          ∀ c ∈ cands, c.2.total_size ≤ headSizeOf g) →
      ∀ g ∈ cands.foldl clusterStep groups,
        g ≠ [] ∧ ∀ y ∈ g, y.2.total_size ≤ headSizeOf g := by
  intro cands
  induction cands with
  | nil =>
      intro groups _ hg g hgmem
      exact ⟨(hg g hgmem).1, (hg g hgmem).2.1⟩
  | cons c rest ih =>
      intro groups hpw hg
      rw [List.foldl_cons]
      have hpwrest : List.Pairwise sizeGE rest := hpw.of_cons
      have hcle : ∀ d ∈ rest, d.2.total_size ≤ c.2.total_size :=
        fun d hd => List.rel_of_pairwise_cons hpw hd
      apply ih (clusterStep groups c) hpwrest
      intro g hgmem
      unfold clusterStep at hgmem
      rcases htp : tryPlace c groups with _ | gs'
      · rw [htp] at hgmem
        rcases List.mem_append.mp hgmem with hold | hnew
        · obtain ⟨h1, h2, h3⟩ := hg g hold
          exact ⟨h1, h2, fun d hd => h3 d (List.mem_cons_of_mem c hd)⟩
        · have hgc : g = [c] := by simpa using hnew
          subst hgc
          refine ⟨by simp, ?_, ?_⟩
          · intro y hy
            have : y = c := by simpa using hy
            subst this
            rfl
          · intro d hd
            exact hcle d hd
      · rw [htp] at hgmem
        obtain ⟨pre, g₀, post, hgrps, hgs'⟩ := tryPlace_eq c groups gs' htp
        subst hgrps hgs'
        obtain ⟨h1, h2, h3⟩ := hg g₀ (by simp)
        have hchead : c.2.total_size ≤ headSizeOf g₀ := h3 c (by simp)
        rcases List.mem_append.mp hgmem with hpre | hgp
        · obtain ⟨k1, k2, k3⟩ := hg g (List.mem_append_left _ hpre)
          exact ⟨k1, k2, fun d hd => k3 d (List.mem_cons_of_mem c hd)⟩
        · rcases List.mem_cons.mp hgp with hgeq | hpost
          · subst hgeq
            refine ⟨by simp [h1], ?_, ?_⟩
            · intro y hy
              rw [headSizeOf_append g₀ c h1]
              rcases List.mem_append.mp hy with hy0 | hyc
              · exact h2 y hy0
              · have : y = c := by simpa using hyc
                subst this
                exact hchead
            · intro d hd
              rw [headSizeOf_append g₀ c h1]
              exact Nat.le_trans (hcle d hd) hchead
          · obtain ⟨k1, k2, k3⟩ := hg g
              (List.mem_append_right _ (List.mem_cons_of_mem g₀ hpost))
            exact ⟨k1, k2, fun d hd => k3 d (List.mem_cons_of_mem c hd)⟩

theorem foldr_max_le (m : Nat) : ∀ l : List Nat, (∀ y ∈ l, y ≤ m) → l.foldr max 0 ≤ m
  | [], _ => Nat.zero_le m
  | x :: t, h => by
      rw [List.foldr_cons]
      exact Nat.max_le.mpr ⟨h x (by simp), foldr_max_le m t fun y hy => h y (by simp [hy])⟩

theorem maxSizeOf_eq_headSizeOf (g : List (String × FolderRec)) (hne : g ≠ [])
    (hall : ∀ y ∈ g, y.2.total_size ≤ headSizeOf g) :
    maxSizeOf g = headSizeOf g := by
  cases g with
  | nil => exact absurd rfl hne
  | cons x t =>
      have h2 : (t.map (·.2.total_size)).foldr max 0 ≤ x.2.total_size := by
        apply foldr_max_le
        intro y hy
        rw [List.mem_map] at hy
        obtain ⟨z, hz, hzy⟩ := hy
        rw [← hzy]
        exact hall z (List.mem_cons_of_mem x hz)
      show max x.2.total_size ((t.map (·.2.total_size)).foldr max 0) = x.2.total_size
      exact Nat.max_eq_left h2

/-- **C2, counterexample.**  The claim retains every folder with
`total_size > 10 MiB`, but the source additionally requires a non-empty
lowercased basename (`if name and ...`): on a map holding two 20 MiB+
folders whose paths end in a separator (empty basename), the claim's
algorithm reports one duplicate group while the code reports none. -/
theorem C2_counterexample :
    analyzeDupFoldersCode
        [("a/", ⟨"a/", 20971521, 0, none, none⟩),
         ("b/", ⟨"b/", 20971521, 0, none, none⟩)]
      ≠ claimDupFoldersOrig
        [("a/", ⟨"a/", 20971521, 0, none, none⟩),
         ("b/", ⟨"b/", 20971521, 0, none, none⟩)] := by
  decide

/-- **C2, amended.**  With retention also requiring a non-empty lowercased
basename (exactly as the source's `if name and info["total_size"] >
10 * 1024 * 1024`), the duplicate-folder pass is precisely the claim's
algorithm: group retained folders by lowercased basename, sort each group
of two or more by size descending (stable), place each entry into the
first cluster whose first - hence largest - member is within the 10%
relative-size test, else open a new cluster, and emit one finding per
cluster of size two or more, with paths in cluster-insertion order and
`total_bytes` equal to the sum of the cluster's sizes minus the largest
size. -/
theorem C2_amended_duplicate_folders (folders : List (String × FolderRec)) :
    analyzeDupFoldersCode folders = claimDupFoldersAmended folders := by
  unfold analyzeDupFoldersCode claimDupFoldersAmended
  dsimp only
  congr 1
  funext ng
  by_cases hlen : ng.2.length < 2
  · simp [hlen]
  · simp only [hlen, if_false]
    apply List.filterMap_congr
    intro c hc
    have hsorted : List.Pairwise sizeGE (List.insertionSort sizeGE ng.2) :=
      List.sorted_insertionSort sizeGE ng.2
    have hinv := clusters_foldl_inv (List.insertionSort sizeGE ng.2) [] hsorted
      (by simp) c hc
    rw [show headSizeOf c = maxSizeOf c from
      (maxSizeOf_eq_headSizeOf c hinv.1 hinv.2).symm]

/-! ## Claim C4: size propagation preserves the parent bound -/

theorem propStep_keys (m : FolderMap) (fp : String) :
    (propStep m fp).map Prod.fst = m.map Prod.fst := by
  unfold propStep
  dsimp only
  by_cases hp : dirname fp = fp
  · rw [if_pos hp]
  · rw [if_neg hp]
    rcases h1 : alookup m (dirname fp) with _ | par <;>
      rcases h2 : alookup m fp with _ | child <;>
        simp [keys_aupdate]

theorem foldl_propStep_keys : ∀ (L : List String) (m : FolderMap),
    (L.foldl propStep m).map Prod.fst = m.map Prod.fst
  | [], _ => rfl
  | fp :: L, m => by
      rw [List.foldl_cons, foldl_propStep_keys L (propStep m fp), propStep_keys]

theorem propStep_mono (m : FolderMap) (fp k : String) (rec : FolderRec)
    (h : alookup m k = some rec) :
    ∃ rec', alookup (propStep m fp) k = some rec' ∧
      rec.total_size ≤ rec'.total_size ∧ rec.file_count ≤ rec'.file_count := by
  unfold propStep
  dsimp only
  by_cases hp : dirname fp = fp
  · rw [if_pos hp]
    exact ⟨rec, h, Nat.le_refl _, Nat.le_refl _⟩
  · rw [if_neg hp]
    rcases h1 : alookup m (dirname fp) with _ | par
    · exact ⟨rec, h, Nat.le_refl _, Nat.le_refl _⟩
    · rcases h2 : alookup m fp with _ | child
      · exact ⟨rec, h, Nat.le_refl _, Nat.le_refl _⟩
      · by_cases hk : k = dirname fp
        · subst hk
          rw [alookup_aupdate_self, h]
          have hrec : rec = par := by
            rw [h] at h1
            exact Option.some.inj h1
          exact ⟨_, rfl, Nat.le_add_right _ _, Nat.le_add_right _ _⟩
        · rw [alookup_aupdate_ne _ _ _ _ hk]
          exact ⟨rec, h, Nat.le_refl _, Nat.le_refl _⟩

theorem foldl_propStep_mono :
    ∀ (L : List String) (m : FolderMap) (k : String) (rec : FolderRec),
      alookup m k = some rec →
      ∃ rec', alookup (L.foldl propStep m) k = some rec' ∧
        rec.total_size ≤ rec'.total_size ∧ rec.file_count ≤ rec'.file_count
  | [], m, k, rec, h => ⟨rec, h, Nat.le_refl _, Nat.le_refl _⟩
  | fp :: L, m, k, rec, h => by
      rw [List.foldl_cons]
      obtain ⟨r1, h1, hs1, hc1⟩ := propStep_mono m fp k rec h
      obtain ⟨r2, h2, hs2, hc2⟩ := foldl_propStep_mono L (propStep m fp) k r1 h1
      exact ⟨r2, h2, Nat.le_trans hs1 hs2, Nat.le_trans hc1 hc2⟩

theorem propStep_other (m : FolderMap) (fp k : String) (hk : k ≠ dirname fp) :
    alookup (propStep m fp) k = alookup m k := by
  unfold propStep
  dsimp only
  by_cases hp : dirname fp = fp
  · rw [if_pos hp]
  · rw [if_neg hp]
    rcases h1 : alookup m (dirname fp) with _ | par
    · rfl
    · rcases h2 : alookup m fp with _ | child
      · rfl
      · exact alookup_aupdate_ne _ _ _ _ hk

theorem foldl_propStep_untouched :
    ∀ (L : List String) (m : FolderMap) (k : String),
      (∀ d ∈ L, k ≠ dirname d) → alookup (L.foldl propStep m) k = alookup m k
  | [], _, _, _ => rfl
  | fp :: L, m, k, h => by
      rw [List.foldl_cons,
        foldl_propStep_untouched L (propStep m fp) k (fun d hd => h d (by simp [hd])),
        propStep_other m fp k (h fp (by simp))]

theorem propStep_donates (m : FolderMap) (F : String) (hroot : ¬ dirname F = F)
    (par child : FolderRec) (hpar : alookup m (dirname F) = some par)
    (hchild : alookup m F = some child) :
    ∃ rec', alookup (propStep m F) (dirname F) = some rec' ∧
      child.total_size ≤ rec'.total_size ∧ child.file_count ≤ rec'.file_count := by
  unfold propStep
  dsimp only
  rw [if_neg hroot, hpar, hchild]
  dsimp only
  rw [alookup_aupdate_self, hpar]
  exact ⟨_, rfl, Nat.le_add_left _ _, Nat.le_add_left _ _⟩

/-- A path that is at least as deep as `F` cannot be a child of `F` unless
`F` is a `dirname` fixed point: `dirname` strictly decreases the separator
count except at its fixed points. -/
theorem dirname_ne_of_shallow {d F : String} (hsep : sepCount d ≤ sepCount F)
    (hroot : ¬ dirname F = F) : ¬ dirname d = F := by
  intro h
  rcases sepCount_dirname_progress d with h1 | h1
  · rw [h] at h1
    omega
  · rw [h] at h1
    exact hroot h1

/-- **C4.**  After `_propagate_folder_sizes`, every folder `F` whose
parent directory path is also a key of the map satisfies
`parent.total_size ≥ F.total_size` and `parent.file_count ≥ F.file_count`
(for a root-like `F` with `dirname F = F` the two lookups coincide and the
bound is trivial, so no non-root hypothesis is needed).  This holds for
arbitrary input maps, hence in particular for the walk's output. -/
theorem C4_parent_aggregates_ge (m : FolderMap) (F : String)
    (recF recP : FolderRec)
    (hF : alookup (propagateFolderSizes m) F = some recF)
    (hP : alookup (propagateFolderSizes m) (dirname F) = some recP) :
    recF.total_size ≤ recP.total_size ∧ recF.file_count ≤ recP.file_count := by
  by_cases hroot : dirname F = F
  · rw [hroot, hF] at hP
    have h := Option.some.inj hP
    subst h
    exact ⟨Nat.le_refl _, Nat.le_refl _⟩
  · unfold propagateFolderSizes at hF hP
    set L := List.insertionSort depthGE (m.map Prod.fst) with hL
    have hkeys := foldl_propStep_keys L m
    have hFmem : F ∈ m.map Prod.fst := by
      have h1 : (alookup (L.foldl propStep m) F).isSome := by rw [hF]; rfl
      rw [alookup_isSome_iff_mem, hkeys] at h1
      exact h1
    have hFL : F ∈ L := ((List.perm_insertionSort depthGE _).mem_iff).mpr hFmem
    obtain ⟨A, B, hAB⟩ := List.append_of_mem hFL
    have hsorted : List.Pairwise depthGE L := List.sorted_insertionSort depthGE _
    have hBsep : ∀ d ∈ B, sepCount d ≤ sepCount F := by
      rw [hAB] at hsorted
      have h2 := (List.pairwise_append.mp hsorted).2.1
      intro d hd
      exact List.rel_of_pairwise_cons h2 hd
    rw [hAB, List.foldl_append, List.foldl_cons] at hF hP
    set m1 := A.foldl propStep m with hm1
    have hm1keys : (m1.map Prod.fst) = m.map Prod.fst := foldl_propStep_keys A m
    have hc1 : ∃ c1, alookup m1 F = some c1 := by
      have hsome := (alookup_isSome_iff_mem m1 F).mpr (by rw [hm1keys]; exact hFmem)
      rcases halo : alookup m1 F with _ | c1
      · rw [halo] at hsome
        exact absurd hsome (by simp)
      · exact ⟨c1, rfl⟩
    obtain ⟨c1, hc1⟩ := hc1
    have hPmem : dirname F ∈ m.map Prod.fst := by
      have h1 : (alookup (B.foldl propStep (propStep m1 F)) (dirname F)).isSome := by
        rw [hP]; rfl
      rw [alookup_isSome_iff_mem, foldl_propStep_keys, propStep_keys, hm1keys] at h1
      exact h1
    have hp1 : ∃ p1, alookup m1 (dirname F) = some p1 := by
      have hsome := (alookup_isSome_iff_mem m1 (dirname F)).mpr
        (by rw [hm1keys]; exact hPmem)
      rcases halo : alookup m1 (dirname F) with _ | p1
      · rw [halo] at hsome
        exact absurd hsome (by simp)
      · exact ⟨p1, rfl⟩
    obtain ⟨p1, hp1⟩ := hp1
    obtain ⟨mrg, hmrg, hms, hmc⟩ := propStep_donates m1 F hroot p1 c1 hp1 hc1
    have hFstep : alookup (propStep m1 F) F = alookup m1 F :=
      propStep_other m1 F F (fun h => hroot h.symm)
    have hFB : alookup (B.foldl propStep (propStep m1 F)) F
        = alookup (propStep m1 F) F := by
      apply foldl_propStep_untouched
      intro d hd
      exact fun h => (dirname_ne_of_shallow (hBsep d hd) hroot) h.symm
    have hrecF : recF = c1 := by
      rw [hFB, hFstep, hc1] at hF
      exact (Option.some.inj hF).symm
    obtain ⟨recP', hP', hs', hcnt'⟩ :=
      foldl_propStep_mono B (propStep m1 F) (dirname F) mrg hmrg
    have hrecP : recP = recP' := by
      rw [hP'] at hP
      exact (Option.some.inj hP).symm
    subst hrecF
    subst hrecP
    exact ⟨Nat.le_trans hms hs', Nat.le_trans hmc hcnt'⟩

/-- Witness for C4: a root with one child folder of 5 bytes / 2 files. -/
theorem C4_parent_aggregates_ge_witness :
    alookup (propagateFolderSizes sampleFolderMap) "/r/a"
        = some ⟨"/r/a", 5, 2, none, none⟩ ∧
      alookup (propagateFolderSizes sampleFolderMap) (dirname "/r/a")
        = some ⟨"/r", 5, 2, none, none⟩ ∧
      ((⟨"/r/a", 5, 2, none, none⟩ : FolderRec).total_size
          ≤ (⟨"/r", 5, 2, none, none⟩ : FolderRec).total_size ∧
        (⟨"/r/a", 5, 2, none, none⟩ : FolderRec).file_count
          ≤ (⟨"/r", 5, 2, none, none⟩ : FolderRec).file_count) :=
  ⟨by decide, by decide,
    C4_parent_aggregates_ge sampleFolderMap "/r/a" _ _ (by decide) (by decide)⟩

/-! ## Claim C1: difference counts in the assembled tree -/

theorem sortedUnion_nodup (src tgt : List (String × CEntry)) :
    (sortedUnion src tgt).Nodup :=
  ((List.perm_insertionSort strLe _).nodup_iff).mpr (List.nodup_dedup _)

theorem sortedUnion_sorted (src tgt : List (String × CEntry)) :
    List.Pairwise strLe (sortedUnion src tgt) :=
  List.sorted_insertionSort strLe _

theorem alookup_map_self {β : Type} (f : String → β) :
    ∀ (L : List String) (q : String),
      alookup (L.map (fun p => (p, f p))) q = if q ∈ L then some (f q) else none
  | [], q => by simp [alookup]
  | p :: L, q => by
      by_cases h : p = q
      · subst h
        simp [alookup]
      · simp [alookup, h, alookup_map_self f L q, Ne.symm h]

theorem pass1Step_items (deep : Bool) (hashFn : String → Option String)
    (src tgt : List (String × CEntry)) (st : P1State) (p : String) :
    (pass1Step deep hashFn src tgt st p).items
      = st.items ++ [(p, pass1Item deep hashFn src tgt p)] := rfl

theorem pass1_foldl_items (deep : Bool) (hashFn : String → Option String)
    (src tgt : List (String × CEntry)) :
    ∀ (L : List String) (st : P1State),
      (L.foldl (pass1Step deep hashFn src tgt) st).items
        = st.items ++ L.map (fun p => (p, pass1Item deep hashFn src tgt p))
  | [], st => by simp
  | p :: L, st => by
      rw [List.foldl_cons, pass1_foldl_items deep hashFn src tgt L _, pass1Step_items]
      simp

theorem pass1_items (deep : Bool) (hashFn : String → Option String)
    (src tgt : List (String × CEntry)) :
    (pass1 deep hashFn src tgt).items
      = (sortedUnion src tgt).map (fun p => (p, pass1Item deep hashFn src tgt p)) := by
  unfold pass1
  rw [pass1_foldl_items]
  simp

/-- A tree-assembly step leaves every key other than the parent of the
processed path unchanged. -/
theorem tbStep_other (items : List (String × CItem)) (st : List (String × TBState))
    (p k : String) (hk : ¬ k = dirname p) :
    alookup (tbStep items st p) k = alookup st k := by
  unfold tbStep
  dsimp only
  by_cases h1 : dirname p = ""
  · rw [if_pos h1]
  · rw [if_neg h1]
    rcases h2 : alookup items (dirname p) with _ | parItem
    · rfl
    · dsimp only
      by_cases h3 : parItem.is_dir = true
      · rw [if_pos h3]
        rcases h4 : alookup st p with _ | cs
        · rfl
        · dsimp only
          by_cases h5 : cs.status ≠ CStatus.identical ∨ 0 < cs.diff
          · rw [if_pos h5]
            exact alookup_aupdate_ne _ _ _ _ hk
          · rw [if_neg h5]
      · rw [if_neg h3]

/-- When the processed path's parent is a folder item `F`, the assembly
step is exactly the conditional parent update of the source. -/
theorem tbStep_fires (items : List (String × CItem)) (st : List (String × TBState))
    (p F : String) (it : CItem) (hdF : dirname p = F) (hFne : ¬ F = "")
    (hFitem : alookup items F = some it) (hdir : it.is_dir = true)
    (cs : TBState) (hcs : alookup st p = some cs) :
    tbStep items st p
      = if cs.status ≠ CStatus.identical ∨ 0 < cs.diff then
          aupdate st F fun ps =>
            ⟨if ps.status = CStatus.identical then CStatus.modified else ps.status,
              ps.diff + (1 + cs.diff)⟩
        else st := by
  unfold tbStep
  dsimp only
  rw [hdF, if_neg hFne, hFitem]
  dsimp only
  rw [if_pos hdir, hcs]

/-- The heart of the amended claim: over a sorted, duplicate-free list of
not-all-separator paths whose states are still initial, the folder `F`
accumulates exactly one unit per direct child whose initial status is
non-identical - a child's own later differences never reach `F` because
every path is processed before all of its descendants. -/
theorem tb_fold_diff (items : List (String × CItem)) (F : String) (it : CItem)
    (hFitem : alookup items F = some it) (hdir : it.is_dir = true) (hFne : ¬ F = "")
    (sts : String → CStatus) :
    ∀ (rest : List String) (st : List (String × TBState)) (s0 : CStatus) (d0 : Nat),
      List.Pairwise strLe rest → rest.Nodup →
      (∀ p ∈ rest, allSlash p = false) →
      (∀ p ∈ rest, alookup st p = some ⟨sts p, 0⟩) →
      alookup st F = some ⟨s0, d0⟩ →
      ∃ s', alookup (rest.foldl (tbStep items) st) F
          = some ⟨s', d0 + rest.countP
              (fun q => decide (dirname q = F) && !(sts q == CStatus.identical))⟩
  | [], st, s0, d0, _, _, _, _, hF => ⟨s0, by simpa using hF⟩
  | p :: rest, st, s0, d0, hpw, hnd, hwf, hinv, hF => by
      rw [List.foldl_cons, List.countP_cons]
      have hinvp : alookup st p = some ⟨sts p, 0⟩ := hinv p (by simp)
      have hdpne : ∀ q ∈ rest, ¬ dirname p = q := by
        intro q hq h
        have h1 : strLe (dirname p) p := strLe_dirname p
        rw [h] at h1
        have h2 : strLe p q := List.rel_of_pairwise_cons hpw hq
        have h3 : p = q := strLe_antisymm h2 h1
        exact (List.nodup_cons.mp hnd).1 (by rw [h3]; exact hq)
      have hpwr : List.Pairwise strLe rest := hpw.of_cons
      have hndr : rest.Nodup := (List.nodup_cons.mp hnd).2
      have hwfr : ∀ q ∈ rest, allSlash q = false := fun q hq => hwf q (by simp [hq])
      by_cases hdF : dirname p = F
      · rw [tbStep_fires items st p F it hdF hFne hFitem hdir _ hinvp]
        by_cases hsi : sts p = CStatus.identical
        · rw [if_neg (by simp [hsi])]
          have hpred :
              (decide (dirname p = F) && !(sts p == CStatus.identical)) = false := by
            simp [hsi]
          rw [hpred]
          have hrec := tb_fold_diff items F it hFitem hdir hFne sts rest st s0 d0
            hpwr hndr hwfr (fun q hq => hinv q (by simp [hq])) hF
          simpa using hrec
        · rw [if_pos (by simp [hsi])]
          have hpred :
              (decide (dirname p = F) && !(sts p == CStatus.identical)) = true := by
            simp [hdF, hsi]
          rw [hpred]
          have hF' : alookup (aupdate st F fun ps =>
              ⟨if ps.status = CStatus.identical then CStatus.modified else ps.status,
                ps.diff + (1 + (0 : Nat))⟩) F
              = some ⟨if s0 = CStatus.identical then CStatus.modified else s0,
                  d0 + 1⟩ := by
            rw [alookup_aupdate_self, hF]
            rfl
          have hinv' : ∀ q ∈ rest, alookup (aupdate st F fun ps =>
              ⟨if ps.status = CStatus.identical then CStatus.modified else ps.status,
                ps.diff + (1 + (0 : Nat))⟩) q = some ⟨sts q, 0⟩ := by
            intro q hq
            rw [alookup_aupdate_ne _ _ _ _ (by rw [← hdF]; exact Ne.symm (hdpne q hq))]
            exact hinv q (by simp [hq])
          obtain ⟨s', hs'⟩ := tb_fold_diff items F it hFitem hdir hFne sts rest _ _ _
            hpwr hndr hwfr hinv' hF'
          refine ⟨s', ?_⟩
          rw [hs']
          have harith : d0 + 1 + rest.countP
                (fun q => decide (dirname q = F) && !(sts q == CStatus.identical))
              = d0 + (rest.countP
                (fun q => decide (dirname q = F) && !(sts q == CStatus.identical))
                  + 1) := by
            omega
          rw [harith]
          simp
      · have hFtouch : alookup (tbStep items st p) F = alookup st F :=
          tbStep_other items st p F fun h => hdF h.symm
        have hpred :
            (decide (dirname p = F) && !(sts p == CStatus.identical)) = false := by
          simp [hdF]
        rw [hpred]
        have hinv' : ∀ q ∈ rest, alookup (tbStep items st p) q = some ⟨sts q, 0⟩ := by
          intro q hq
          rw [tbStep_other items st p q fun h => (hdpne q hq) h.symm]
          exact hinv q (by simp [hq])
        have hrec := tb_fold_diff items F it hFitem hdir hFne sts rest
          (tbStep items st p) s0 d0 hpwr hndr hwfr hinv' (by rw [hFtouch]; exact hF)
        simpa using hrec

/-- **C1, counterexample.**  In the comparison of two trees `a/b/c` where
only the file `c` differs, the root folder item `a` ends with
`difference_count = 0` although it has two non-identical descendants
(`a/b` and `a/b/c`): the assembly loop adds a child's count to its parent
before the child's own count is known, so differences never propagate past
the immediate parent. -/
theorem C1_counterexample :
    (alookup cmpSample.1.items "a").map CItem.is_dir = some true ∧
      (alookup cmpSample.2 "a").map TBState.diff
        ≠ some (nonIdentDescCount cmpSample.1.items cmpSample.2
            cmpSample.1.items.length "a") := by
  constructor
  · decide
  · decide

/-- **C1, amended.**  For every folder item `F` of the result, the final
`difference_count` equals the number of *direct children* of `F` whose
*initially assigned* (pre-propagation) status is not `identical` - not the
number of non-identical descendants: because items are processed in
ascending path order, a child donates `1 + difference_count` to its parent
while its own count is still 0, so counts do not propagate to
grandparents.  The hypothesis excludes keys that are empty or all
separators (true of every real relative path the comparator indexes). -/
theorem C1_amended_diff_is_direct_children (deep : Bool)
    (hashFn : String → Option String) (src tgt : List (String × CEntry))
    (hwf : ∀ p ∈ sortedUnion src tgt, allSlash p = false)
    (F : String) (it : CItem) (st : TBState)
    (hit : alookup (pass1 deep hashFn src tgt).items F = some it)
    (hdir : it.is_dir = true)
    (hst : alookup (pass2 (pass1 deep hashFn src tgt).items) F = some st) :
    st.diff = (sortedUnion src tgt).countP
      (fun q => decide (dirname q = F) &&
        !((classifyEntries deep hashFn (alookup src q) (alookup tgt q)).2
            == CStatus.identical)) := by
  have hitems := pass1_items deep hashFn src tgt
  have hFL : F ∈ sortedUnion src tgt := by
    have h1 : (alookup (pass1 deep hashFn src tgt).items F).isSome := by rw [hit]; rfl
    rw [hitems, alookup_map_self] at h1
    by_cases h : F ∈ sortedUnion src tgt
    · exact h
    · rw [if_neg h] at h1
      exact absurd h1 (by simp)
  have hFne : ¬ F = "" := by
    intro h
    have := hwf F hFL
    rw [h] at this
    exact absurd this (by decide)
  have hkeys2 : (pass1 deep hashFn src tgt).items.map Prod.fst = sortedUnion src tgt := by
    rw [hitems, List.map_map]
    have : (Prod.fst ∘ fun p => (p, pass1Item deep hashFn src tgt p)) = id := rfl
    rw [this, List.map_id]
  have hinit : tbInit (pass1 deep hashFn src tgt).items
      = (sortedUnion src tgt).map
          (fun p => (p, (⟨(pass1Item deep hashFn src tgt p).status, 0⟩ : TBState))) := by
    rw [hitems]
    unfold tbInit
    rw [List.map_map]
    rfl
  unfold pass2 at hst
  rw [hkeys2] at hst
  have hinv0 : ∀ p ∈ sortedUnion src tgt,
      alookup (tbInit (pass1 deep hashFn src tgt).items) p
        = some ⟨(classifyEntries deep hashFn (alookup src p) (alookup tgt p)).2, 0⟩ := by
    intro p hp
    rw [hinit, alookup_map_self, if_pos hp]
    rfl
  have hF0 := hinv0 F hFL
  obtain ⟨s', hs'⟩ := tb_fold_diff (pass1 deep hashFn src tgt).items F it hit hdir hFne
    (fun q => (classifyEntries deep hashFn (alookup src q) (alookup tgt q)).2)
    (sortedUnion src tgt) (tbInit (pass1 deep hashFn src tgt).items)
    ((classifyEntries deep hashFn (alookup src F) (alookup tgt F)).2) 0
    (sortedUnion_sorted src tgt) (sortedUnion_nodup src tgt) hwf hinv0 hF0
  rw [hs'] at hst
  have h := Option.some.inj hst
  rw [← h]
  simp

/-- Witness for the amended C1 at the sample comparison, at the folder
item `a/b` (one direct child `a/b/c`, initially `modified`). -/
theorem C1_amended_diff_is_direct_children_witness :
    (∀ p ∈ sortedUnion (buildFileIndex "/s" fsSrcSample) (buildFileIndex "/t" fsTgtSample),
        allSlash p = false) ∧
      (⟨CStatus.modified, 1⟩ : TBState).diff
        = (sortedUnion (buildFileIndex "/s" fsSrcSample)
            (buildFileIndex "/t" fsTgtSample)).countP
            (fun q => decide (dirname q = "a/b") &&
              !((classifyEntries false (fun _ => none)
                  (alookup (buildFileIndex "/s" fsSrcSample) q)
                  (alookup (buildFileIndex "/t" fsTgtSample) q)).2
                  == CStatus.identical)) :=
  ⟨by decide,
    C1_amended_diff_is_direct_children false (fun _ => none)
      (buildFileIndex "/s" fsSrcSample) (buildFileIndex "/t" fsTgtSample)
      (by decide) "a/b" ⟨"b", "a/b", true, CStatus.identical, some 0, some 0, some 0, some 0⟩
      ⟨CStatus.modified, 1⟩ (by decide) (by decide) (by decide)⟩

end DiskMaint
